import Mathlib

/-!
Verification development for an implicit-free-list memory allocator
(`mm.c`: boundary-tag encoding, next-fit search, split placement,
boundary-tag coalescing).

Memory is modelled byte-addressed: `Mem = Nat → Nat`, where the value at
an address is the byte stored there (all memories arising in this
development hold values `< 256`, and reads mask with `% 256` exactly as
8-bit cells do).  A 32-bit word is read/written little-endian through
`GET`/`PUT`, matching the C `*(uint32_t *)p` accesses of the source.
Machine integers are `Nat` with explicit `% 2^32` (and a 64-bit wrapping
subtraction where `size_t` subtraction can underflow); addresses are
plain `Nat`.  The allocator's global state (`heap_listp`, `next_fit`,
the break) is carried in a `Heap` record; the unbounded scanning loops
of `find_fit` take explicit fuel and return `none` when it runs out.
-/

namespace MM

/-- Byte-addressed memory: address → stored byte. -/
abbrev Mem := Nat → Nat

/-- word size (bytes), `WSIZE` in the source. -/
def WSIZE : Nat := 4

/-- doubleword size (bytes), `DSIZE` in the source. -/
def DSIZE : Nat := 8

/-- initial heap size (bytes), `CHUNKSIZE = 1<<12` in the source. -/
def CHUNKSIZE : Nat := 4096

/-- Store one byte. -/
def putByte (m : Mem) (p v : Nat) : Mem :=
  fun x => if x = p then v else m x

/-- `PUT(p, val)`: store a 32-bit word little-endian (C `*(uint32_t*)p = val`;
values `≥ 2^32` are truncated exactly as the 32-bit store does). -/
def PUT (m : Mem) (p v : Nat) : Mem :=
  putByte (putByte (putByte (putByte m p (v % 256))
    (p + 1) (v / 256 % 256)) (p + 2) (v / 65536 % 256)) (p + 3) (v / 16777216 % 256)

/-- `GET(p)`: read a 32-bit word little-endian (C `*(uint32_t*)p`); each
cell is an 8-bit byte, hence the `% 256` masks. -/
def GET (m : Mem) (p : Nat) : Nat :=
  m p % 256 + 256 * (m (p + 1) % 256) + 65536 * (m (p + 2) % 256) +
    16777216 * (m (p + 3) % 256)

/-- `PACK(size, alloc) = size | (alloc & 0x1)`. -/
def PACK (size alloc : Nat) : Nat :=
  size ||| (alloc &&& 1)

/-- `GET_SIZE(p) = GET(p) & ~0x7`: clear the low three bits.  For the
32-bit value returned by `GET` this mask is exactly `GET p - GET p % 8`. -/
def GET_SIZE (m : Mem) (p : Nat) : Nat :=
  GET m p - GET m p % 8

/-- `GET_ALLOC(p) = GET(p) & 0x1`, i.e. the parity bit. -/
def GET_ALLOC (m : Mem) (p : Nat) : Nat :=
  GET m p % 2

/-- `HDRP(bp) = bp - WSIZE`. -/
def HDRP (bp : Nat) : Nat := bp - WSIZE

/-- `FTRP(bp) = bp + GET_SIZE(HDRP(bp)) - DSIZE`. -/
def FTRP (m : Mem) (bp : Nat) : Nat :=
  bp + GET_SIZE m (HDRP bp) - DSIZE

/-- `NEXT_BLKP(bp) = bp + GET_SIZE(bp - WSIZE)`. -/
def NEXT_BLKP (m : Mem) (bp : Nat) : Nat :=
  bp + GET_SIZE m (bp - WSIZE)

/-- `PREV_BLKP(bp) = bp - GET_SIZE(bp - DSIZE)`. -/
def PREV_BLKP (m : Mem) (bp : Nat) : Nat :=
  bp - GET_SIZE m (bp - DSIZE)

/-- Allocator state: the heap bytes, the break (one past the top of the
managed region), the hard limit of the growth primitive, and the two
globals `heap_listp` and `next_fit` of the source. -/
structure Heap where
  mem : Mem
  brk : Nat
  limit : Nat
  heap_listp : Nat
  next_fit : Nat

instance : Inhabited Heap :=
  ⟨{ mem := fun _ => 0, brk := 0, limit := 0, heap_listp := 0, next_fit := 0 }⟩

/-- Modelled from the spec: the raw heap-growth primitive
(`mem_sbrk` of the excluded `memlib` collaborator, spec §6:
`grow(byte_count) -> old_top_address | failure`).  It extends the
managed region by `size` bytes, returning the old top of heap, and
signals failure distinctly (here `none`) when its hard limit would be
exceeded, leaving the region unchanged. -/
def mem_sbrk (h : Heap) (size : Nat) : Option (Nat × Heap) :=
  if h.limit < h.brk + size then none
  else some (h.brk, { h with brk := h.brk + size })

/-- 64-bit wrapping subtraction: C `size_t` subtraction `a - b`. -/
def sub64 (a b : Nat) : Nat :=
  (a + 18446744073709551616 - b) % 18446744073709551616

/-- Two's-complement reading of a 32-bit value: the conversion
`(int)x` applied to a `size_t` value below `2^32`. -/
def toInt32 (n : Nat) : Int :=
  if n % 4294967296 < 2147483648 then (n % 4294967296 : Nat)
  else (n % 4294967296 : Nat) - (4294967296 : Int)

/-- `MAX(x, y)` of the source: `int` comparison. -/
def MAXc (x y : Int) : Int :=
  if x > y then x else y

/-- `coalesce(bp)`: boundary-tag coalescing.  Reads the allocated flag
of the physical predecessor's footer and successor's header, merges by
the four-case analysis of the source, then (except in the no-merge
case, whose `return bp` skips it) relocates `next_fit` when it sits
inside the merged block.  Each address expression is evaluated against
the memory state at its program point, as in the source. -/
def coalesce (h : Heap) (bp : Nat) : Nat × Heap :=
  let m := h.mem
  let prev_alloc := GET_ALLOC m (FTRP m (PREV_BLKP m bp))
  let next_alloc := GET_ALLOC m (HDRP (NEXT_BLKP m bp))
  let size := GET_SIZE m (HDRP bp)
  if prev_alloc ≠ 0 ∧ next_alloc ≠ 0 then
    (bp, h)
  else
    let r :=
      if prev_alloc ≠ 0 ∧ next_alloc = 0 then
        let size2 := size + GET_SIZE m (HDRP (NEXT_BLKP m bp))
        let m1 := PUT m (HDRP bp) (PACK size2 0)
        let m2 := PUT m1 (FTRP m1 bp) (PACK size2 0)
        (bp, m2)
      else if prev_alloc = 0 ∧ next_alloc ≠ 0 then
        let size3 := size + GET_SIZE m (HDRP (PREV_BLKP m bp))
        let m1 := PUT m (FTRP m bp) (PACK size3 0)
        let m2 := PUT m1 (HDRP (PREV_BLKP m1 bp)) (PACK size3 0)
        (PREV_BLKP m2 bp, m2)
      else
        let size4 := size + GET_SIZE m (HDRP (PREV_BLKP m bp)) +
          GET_SIZE m (FTRP m (NEXT_BLKP m bp))
        let m1 := PUT m (HDRP (PREV_BLKP m bp)) (PACK size4 0)
        let m2 := PUT m1 (FTRP m1 (NEXT_BLKP m1 bp)) (PACK size4 0)
        (PREV_BLKP m2 bp, m2)
    let bp2 := r.1
    let m2 := r.2
    let nf := if bp2 ≤ h.next_fit ∧ h.next_fit < NEXT_BLKP m2 bp2 then bp2 else h.next_fit
    (bp2, { h with mem := m2, next_fit := nf })

/-- `extend_heap(words)`: round the word count up to even, ask the raw
growth primitive, lay a free block over the new region, write the new
epilogue header, and coalesce with the preceding block. -/
def extend_heap (h : Heap) (words : Nat) : Option (Nat × Heap) :=
  let size := if words % 2 = 1 then (words + 1) * WSIZE else words * WSIZE
  match mem_sbrk h size with
  | none => none
  | some (bp, h1) =>
    let m1 := PUT h1.mem (HDRP bp) (PACK size 0)
    let m2 := PUT m1 (FTRP m1 bp) (PACK size 0)
    let m3 := PUT m2 (HDRP (NEXT_BLKP m2 bp)) (PACK 0 1)
    some (coalesce { h1 with mem := m3 } bp)

/-- First loop of `find_fit`: scan forward from `nf` until the epilogue
(header size 0), looking for a free block of size at least `asize`.
Returns the found block (or `none`) together with the final value of
the `next_fit` global; the outer `none` means the fuel ran out. -/
def find_fit_loop1 (m : Mem) (asize : Nat) : Nat → Nat → Option (Option Nat × Nat)
  | 0, _ => none
  | fuel + 1, nf =>
    if 0 < GET_SIZE m (HDRP nf) then
      if GET_ALLOC m (HDRP nf) = 0 ∧ asize ≤ GET_SIZE m (HDRP nf) then
        some (some nf, nf)
      else
        find_fit_loop1 m asize fuel (NEXT_BLKP m nf)
    else
      some (none, nf)

/-- Second loop of `find_fit`: scan from the traversal start while the
position is below `bp` (the block the cursor started at). -/
def find_fit_loop2 (m : Mem) (asize bp : Nat) : Nat → Nat → Option (Option Nat × Nat)
  | 0, _ => none
  | fuel + 1, nf =>
    if nf < bp then
      if GET_ALLOC m (HDRP nf) = 0 ∧ asize ≤ GET_SIZE m (HDRP nf) then
        some (some nf, nf)
      else
        find_fit_loop2 m asize bp fuel (NEXT_BLKP m nf)
    else
      some (none, nf)

/-- `find_fit(asize)`: next-fit search.  Scans forward from the cursor
to the epilogue, then wraps and scans from `heap_listp` up to (but
excluding) the original cursor position.  The cursor global ends at the
loop variable's final value.  `none` means the fuel ran out. -/
def find_fit (h : Heap) (asize fuel : Nat) : Option (Option Nat × Heap) :=
  let bp := h.next_fit
  match find_fit_loop1 h.mem asize fuel bp with
  | none => none
  | some (some r, nf) => some (some r, { h with next_fit := nf })
  | some (none, _) =>
    match find_fit_loop2 h.mem asize bp fuel h.heap_listp with
    | none => none
    | some (res, nf) => some (res, { h with next_fit := nf })

/-- `place(bp, asize)`: allocate `asize` bytes at the start of free
block `bp`; split when the remainder `csize - asize` (a `size_t`
subtraction, hence `sub64`) is at least `2*DSIZE`, and advance the
cursor when it equals the final value of the local `bp` (which the
split branch has moved to the remainder block). -/
def place (h : Heap) (bp : Nat) (asize : Nat) : Heap :=
  let csize := GET_SIZE h.mem (HDRP bp)
  if 2 * DSIZE ≤ sub64 csize asize then
    let m1 := PUT h.mem (HDRP bp) (PACK asize 1)
    let m2 := PUT m1 (FTRP m1 bp) (PACK asize 1)
    let bp2 := NEXT_BLKP m2 bp
    let m3 := PUT m2 (HDRP bp2) (PACK (sub64 csize asize) 0)
    let m4 := PUT m3 (FTRP m3 bp2) (PACK (sub64 csize asize) 0)
    let nf := if h.next_fit = bp2 then NEXT_BLKP m4 bp2 else h.next_fit
    { h with mem := m4, next_fit := nf }
  else
    let m1 := PUT h.mem (HDRP bp) (PACK csize 1)
    let m2 := PUT m1 (FTRP m1 bp) (PACK csize 1)
    let nf := if h.next_fit = bp then NEXT_BLKP m2 bp else h.next_fit
    { h with mem := m2, next_fit := nf }

/-- `mm_free(bp)`: rewrite header and footer as free with the current
size, then coalesce. -/
def mm_free (h : Heap) (bp : Nat) : Heap :=
  let size := GET_SIZE h.mem (HDRP bp)
  let m1 := PUT h.mem (HDRP bp) (PACK size 0)
  let m2 := PUT m1 (FTRP m1 bp) (PACK size 0)
  (coalesce { h with mem := m2 } bp).2

/-- The adjusted block size of `mm_malloc`: `2*DSIZE` for requests up
to `DSIZE`, otherwise `DSIZE * ((size + DSIZE + (DSIZE-1)) / DSIZE)`
computed in 32-bit unsigned arithmetic (the sum wraps mod `2^32`). -/
def asizeOf (size : Nat) : Nat :=
  if size ≤ DSIZE then 2 * DSIZE
  else DSIZE * ((size + DSIZE + (DSIZE - 1)) % 4294967296 / DSIZE)

/-- The byte count handed to the growth fallback of `mm_malloc`:
`MAX(asize, CHUNKSIZE)` computed on C `int`s, so an adjusted size at or
above `2^31` reads as negative. -/
def extendsizeOf (asize : Nat) : Nat :=
  (MAXc (toInt32 asize) (toInt32 CHUNKSIZE)).toNat

/-- `mm_malloc(size)`: reject 0, round the request, search next-fit,
place on success; otherwise extend the heap by
`MAX(asize, CHUNKSIZE)/WSIZE` words and place there, or return the
null result (`none` in the inner option) if growth fails.  The outer
`none` means the search fuel ran out. -/
def mm_malloc (h : Heap) (size : Nat) (fuel : Nat) : Option (Option Nat × Heap) :=
  if size = 0 then some (none, h)
  else
    let asize := asizeOf size
    match find_fit h asize fuel with
    | none => none
    | some (some bp, h1) => some (some bp, place h1 bp asize)
    | some (none, h1) =>
      let extendsize := extendsizeOf asize
      match extend_heap h1 (extendsize / WSIZE) with
      | none => some (none, h1)
      | some (bp, h2) => some (some bp, place h2 bp asize)

/-- `mm_init()`: grow by four words, write the padding word, prologue
header/footer `(8, allocated)` and epilogue header `(0, allocated)`,
point `heap_listp` and `next_fit` between prologue header and footer,
and extend by `CHUNKSIZE/WSIZE` words.  `none` on growth failure. -/
def mm_init (limit : Nat) : Option Heap :=
  let h0 : Heap := { mem := fun _ => 0, brk := 0, limit := limit,
                     heap_listp := 0, next_fit := 0 }
  match mem_sbrk h0 (4 * WSIZE) with
  | none => none
  | some (p, h1) =>
    let m1 := PUT h1.mem p 0
    let m2 := PUT m1 (p + 1 * WSIZE) (PACK DSIZE 1)
    let m3 := PUT m2 (p + 2 * WSIZE) (PACK DSIZE 1)
    let m4 := PUT m3 (p + 3 * WSIZE) (PACK 0 1)
    let h2 := { h1 with mem := m4, heap_listp := p + 2 * WSIZE,
                        next_fit := p + 2 * WSIZE }
    match extend_heap h2 (CHUNKSIZE / WSIZE) with
    | none => none
    | some (_, h3) => some h3

/-- `memcpy(dst, src, n)`: copy `n` bytes, reading from the original
memory. -/
def memcpy (m : Mem) (dst src : Nat) : Nat → Mem
  | 0 => m
  | n + 1 => putByte (memcpy m dst src n) (dst + n) (m (src + n))

/-- Result of `mm_realloc`: either the fatal `exit(1)` path or a new
block address together with the final heap. -/
inductive ReallocResult where
  | fatal : ReallocResult
  | ok : Nat → Heap → ReallocResult

instance : Inhabited ReallocResult :=
  ⟨ReallocResult.fatal⟩

/-- `mm_realloc(ptr, size)`: allocate a fresh block, `exit(1)` if that
fails, copy `copySize = GET_SIZE(HDRP(ptr))` capped at `size` bytes,
free the old block, return the new address.  The outer `none` means
the search fuel ran out. -/
def mm_realloc (h : Heap) (ptr size fuel : Nat) : Option ReallocResult :=
  match mm_malloc h size fuel with
  | none => none
  | some (none, _) => some ReallocResult.fatal
  | some (some newp, h1) =>
    let copySize := GET_SIZE h1.mem (HDRP ptr)
    let copySize := if size < copySize then size else copySize
    let m2 := memcpy h1.mem newp ptr copySize
    let h2 := mm_free { h1 with mem := m2 } ptr
    some (ReallocResult.ok newp h2)

/-- The addresses of the blocks visited by a forward traversal from
`pos` up to (excluding) the first zero-size header, i.e. the epilogue;
`none` when the fuel runs out first. -/
def blocksTo (m : Mem) : Nat → Nat → Option (List Nat)
  | 0, _ => none
  | fuel + 1, pos =>
    if 0 < GET_SIZE m (HDRP pos) then
      (blocksTo m fuel (NEXT_BLKP m pos)).map (pos :: ·)
    else some []

/-- The addresses visited by a forward traversal from `pos` while the
position stays below `bound`; `none` when the fuel runs out first. -/
def blocksBelow (m : Mem) (bound : Nat) : Nat → Nat → Option (List Nat)
  | 0, _ => none
  | fuel + 1, pos =>
    if pos < bound then
      (blocksBelow m bound fuel (NEXT_BLKP m pos)).map (pos :: ·)
    else some []

/-- The fit test of `find_fit`: block `b` is free and holds at least
`asize` bytes. -/
def fitsB (m : Mem) (asize b : Nat) : Bool :=
  decide (GET_ALLOC m (HDRP b) = 0 ∧ asize ≤ GET_SIZE m (HDRP b))

/-- The byte count `mm_malloc`'s growth fallback hands to the raw
growth primitive: `MAX(asize, CHUNKSIZE)` (on C `int`s) rounded up to
an even number of machine words by `extend_heap`. -/
def growthRequest (size : Nat) : Nat :=
  let words := extendsizeOf (asizeOf size) / WSIZE
  if words % 2 = 1 then (words + 1) * WSIZE else words * WSIZE

/-- The spec's reading of the successful `mm_realloc` tail: copy
`min(new_size, old_encoded_size)` bytes from the old block to the new
one, then free the old block. -/
def reallocCopyFree (h1 : Heap) (newp ptr size : Nat) : Heap :=
  mm_free { h1 with mem := memcpy h1.mem newp ptr (min size (GET_SIZE h1.mem (HDRP ptr))) } ptr

/-- A concrete heap produced by a successful `mm_init` (growth limit
100000 bytes), used to exercise the operations on closed inputs. -/
def heap0 : Heap := (mm_init 100000).get!

/-- `heap0` after `mm_malloc(100)` (which returns block 16). -/
def heap1 : Heap := ((mm_malloc heap0 100 20).get!).2

/-! ### Abstraction layer for Claim C4 — block lists -/

/-- One block per entry: `(size, allocated)`.  `chain m a bs e` says the
memory `m` carries exactly the blocks `bs` laid out contiguously from
payload address `a` to `e`, each with matching boundary tags. -/
def chain (m : Mem) : Nat → List (Nat × Bool) → Nat → Prop
  | a, [], e => a = e
  | a, (s, al) :: bs, e =>
    16 ≤ s ∧ 8 ∣ s ∧
    GET m (a - 4) = s + (if al then 1 else 0) ∧
    GET m (a + s - 8) = s + (if al then 1 else 0) ∧
    chain m (a + s) bs e

/-- The payload addresses of the blocks of `bs` laid out from `a`. -/
def starts : Nat → List (Nat × Bool) → List Nat
  | _, [] => []
  | a, (s, _) :: bs => a :: starts (a + s) bs

/-- The block of `bs` (laid out from `a`) starting at `bp`, if any. -/
def blockAt : Nat → List (Nat × Bool) → Nat → Option (Nat × Bool)
  | _, [], _ => none
  | a, (s, al) :: bs, bp => if bp = a then some (s, al) else blockAt (a + s) bs bp

/-- No two physically adjacent blocks are both free. -/
def noAdjFree (bs : List (Nat × Bool)) : Prop :=
  List.Chain' (fun x y => x.2 = true ∨ y.2 = true) bs

/-- Positions the roaming cursor may legally take: the prologue
payload, a block payload, or the epilogue payload (the break). -/
def validPos (bs : List (Nat × Bool)) (brk pos : Nat) : Prop :=
  pos = 8 ∨ pos = brk ∨ pos ∈ starts 16 bs

/-- The heap-shape invariant: prologue `(8, allocated)` at 4/8, the
real blocks `bs` from 16 to the break, the epilogue header `(0,
allocated)` at the break, the break within the growth limit (which
stays below `2^32`, the reach of the 32-bit size fields), and the
cursor on a legal position. -/
def heapRep (h : Heap) (bs : List (Nat × Bool)) : Prop :=
  h.heap_listp = 8 ∧
  GET h.mem 4 = 9 ∧
  GET h.mem 8 = 9 ∧
  chain h.mem 16 bs h.brk ∧
  GET h.mem (h.brk - 4) = 1 ∧
  16 ≤ h.brk ∧
  h.brk ≤ h.limit ∧
  h.limit < 4294967296 ∧
  validPos bs h.brk h.next_fit

/-- The caller contract of `free`: the argument is the payload address
of an allocated block. -/
def ValidFree (h : Heap) (bp : Nat) : Prop :=
  ∀ bs, heapRep h bs → ∃ s, blockAt 16 bs bp = some (s, true)

/-- Heap states reachable from a successful `mm_init` by `mm_malloc`
(with request sizes in the range where the 32-bit size arithmetic does
not overflow) and `mm_free` on valid allocated blocks, with any search
fuel that lets the call terminate. -/
inductive Reach : Heap → Prop where
  | init : ∀ limit h, mm_init limit = some h → limit < 4294967296 → Reach h
  | step_malloc : ∀ h size fuel r h', Reach h → size ≤ 2147483632 →
      mm_malloc h size fuel = some (r, h') → Reach h'
  | step_free : ∀ h bp, Reach h → ValidFree h bp → Reach (mm_free h bp)

/-! ### Basic facts about the word codec -/

theorem GET_lt (m : Mem) (p : Nat) : GET m p < 4294967296 := by
  unfold GET
  have h0 := Nat.mod_lt (m p) (by omega : 0 < 256)
  have h1 := Nat.mod_lt (m (p + 1)) (by omega : 0 < 256)
  have h2 := Nat.mod_lt (m (p + 2)) (by omega : 0 < 256)
  have h3 := Nat.mod_lt (m (p + 3)) (by omega : 0 < 256)
  omega

theorem putByte_same (m : Mem) (p v : Nat) : putByte m p v p = v := by
  simp [putByte]

theorem putByte_other (m : Mem) (p v x : Nat) (h : x ≠ p) : putByte m p v x = m x := by
  simp [putByte, h]

/-- A 32-bit store does not touch bytes outside `[p, p+4)`. -/
theorem PUT_out (m : Mem) (p v x : Nat) (h : x < p ∨ p + 4 ≤ x) :
    PUT m p v x = m x := by
  unfold PUT
  rw [putByte_other _ _ _ _ (by omega), putByte_other _ _ _ _ (by omega),
    putByte_other _ _ _ _ (by omega), putByte_other _ _ _ _ (by omega)]

/-- Reading back a stored word yields the value truncated to 32 bits. -/
theorem GET_PUT_eq (m : Mem) (p v : Nat) : GET (PUT m p v) p = v % 4294967296 := by
  unfold GET PUT
  rw [putByte_same]
  rw [putByte_other _ _ _ _ (by omega : p + 2 ≠ p + 3), putByte_same]
  rw [putByte_other _ _ _ _ (by omega : p + 1 ≠ p + 3),
    putByte_other _ _ _ _ (by omega : p + 1 ≠ p + 2), putByte_same]
  rw [putByte_other _ _ _ _ (by omega : p ≠ p + 3),
    putByte_other _ _ _ _ (by omega : p ≠ p + 2),
    putByte_other _ _ _ _ (by omega : p ≠ p + 1), putByte_same]
  omega

/-- A word read is unaffected by a word store to a disjoint word. -/
theorem GET_PUT_out (m : Mem) (p v q : Nat) (h : q + 4 ≤ p ∨ p + 4 ≤ q) :
    GET (PUT m p v) q = GET m q := by
  unfold GET
  rw [PUT_out _ _ _ _ (by omega), PUT_out _ _ _ _ (by omega),
    PUT_out _ _ _ _ (by omega), PUT_out _ _ _ _ (by omega)]

/-- Distinct word-aligned addresses hold disjoint words. -/
theorem GET_PUT_ne (m : Mem) (p v q : Nat) (hp : 4 ∣ p) (hq : 4 ∣ q) (h : p ≠ q) :
    GET (PUT m p v) q = GET m q := by
  exact GET_PUT_out m p v q (by omega)

/-- `PACK size 0` is just the size. -/
theorem PACK_zero (s : Nat) : PACK s 0 = s := by
  simp [PACK]

/-- For the aligned sizes the allocator stores, the tag bit ORs in as
an addition. -/
theorem PACK_one (s : Nat) (h : 8 ∣ s) : PACK s 1 = s + 1 := by
  obtain ⟨k, rfl⟩ := h
  unfold PACK
  have h1 : (1 : Nat) &&& 1 = 1 := by decide
  rw [h1, show (8 : Nat) * k = 2 ^ 3 * k from by norm_num]
  exact (Nat.mul_add_lt_is_or (by norm_num) k).symm


/-- Decode a word known to be `s + a` with `s` 8-aligned and `a` a tag
bit: the size and allocated fields come back exactly. -/
theorem decode_fields (m : Mem) (p s a : Nat) (hG : GET m p = s + a)
    (h8 : 8 ∣ s) (ha : a ≤ 1) : GET_SIZE m p = s ∧ GET_ALLOC m p = a := by
  unfold GET_SIZE GET_ALLOC
  rw [hG]
  omega

/-! ### Claim C5 — adjusted request size -/

/-- C5 (counterexample): at the request size `2^32 - 15` the 32-bit sum
`size + 15` wraps, the adjusted size computes to `0`, and so it is
neither at least `size + 8` nor at least the 16-byte minimum, contrary
to the claim as stated for every positive request. -/
theorem C5_asize_wraps_at_huge_request :
    asizeOf 4294967281 = 0 ∧
      ¬ (4294967281 + 8 ≤ asizeOf 4294967281 ∧ 16 ≤ asizeOf 4294967281) := by
  constructor
  · decide
  · decide

/-- C5 (amended: restricted to requests `size ≤ 2^32 - 16`, so that the
32-bit sum `size + DSIZE + (DSIZE-1)` does not wrap): the adjusted
block size is a multiple of the 8-byte alignment unit, is at least
`size + 8` (header/footer overhead), is at least the 16-byte minimum
block size, and is the smallest such multiple of 8. -/
theorem C5_asize_is_rounded_overhead (size : Nat) (hpos : 0 < size)
    (hub : size ≤ 4294967280) :
    8 ∣ asizeOf size ∧ size + 8 ≤ asizeOf size ∧ 16 ≤ asizeOf size ∧
      ∀ c : Nat, 8 ∣ c → size + 8 ≤ c → asizeOf size ≤ c := by
  unfold asizeOf DSIZE
  split
  · refine ⟨by omega, by omega, by omega, ?_⟩
    intro c h8 hc
    omega
  · have hmod : (size + 8 + (8 - 1)) % 4294967296 = size + 15 := by omega
    rw [hmod]
    refine ⟨by omega, by omega, by omega, ?_⟩
    intro c h8 hc
    omega

/-- C5 witness: the amended statement instantiated at request size 100
(adjusted size 112). -/
theorem C5_witness :
    8 ∣ asizeOf 100 ∧ 100 + 8 ≤ asizeOf 100 ∧ 16 ≤ asizeOf 100 ∧
      ∀ c : Nat, 8 ∣ c → 100 + 8 ≤ c → asizeOf 100 ≤ c :=
  C5_asize_is_rounded_overhead 100 (by decide) (by decide)

/-- 64-bit `size_t` subtraction with no underflow is plain subtraction. -/
theorem sub64_of_le (a b : Nat) (h : b ≤ a) (ha : a < 18446744073709551616) :
    sub64 a b = a - b := by
  unfold sub64
  omega

/-! ### The two outcomes of `place` -/

/-- Split outcome of `place`: when the leftover is at least `2*DSIZE`,
the block's header/footer become `(asize, allocated)` and the
immediately following region gets header/footer `(csize - asize, free)`;
the cursor advances only if it sat on the remainder address (the local
`bp` after reassignment). -/
theorem place_split_eq (h : Heap) (bp asize csize : Nat)
    (hcs : GET_SIZE h.mem (HDRP bp) = csize)
    (hbp : 8 ∣ bp) (hbp8 : 8 ≤ bp) (h8a : 8 ∣ asize) (h8c : 8 ∣ csize)
    (ha16 : 16 ≤ asize) (hac : asize ≤ csize) (hlt : csize < 4294967296)
    (hsplit : 16 ≤ csize - asize) :
    place h bp asize = { h with
      mem := PUT (PUT (PUT (PUT h.mem (bp - 4) (PACK asize 1))
        (bp + asize - 8) (PACK asize 1)) (bp + asize - 4) (PACK (csize - asize) 0))
        (bp + csize - 8) (PACK (csize - asize) 0),
      next_fit := if h.next_fit = bp + asize then bp + csize else h.next_fit } := by
  have hca : csize - asize < 4294967296 := by omega
  have hPA : PACK asize 1 = asize + 1 := PACK_one _ h8a
  have hP0 : PACK (csize - asize) 0 = csize - asize := PACK_zero _
  have e1 : GET (PUT h.mem (bp - 4) (PACK asize 1)) (bp - 4) = asize + 1 := by
    rw [GET_PUT_eq, hPA, Nat.mod_eq_of_lt (by omega)]
  have e1f := decode_fields _ _ _ _ e1 h8a (by omega)
  have e2 : GET (PUT (PUT h.mem (bp - 4) (PACK asize 1)) (bp + asize - 8) (PACK asize 1))
      (bp - 4) = asize + 1 := by
    rw [GET_PUT_ne _ _ _ _ (by omega) (by omega) (by omega), e1]
  have e2f := decode_fields _ _ _ _ e2 h8a (by omega)
  have e3 : GET (PUT (PUT (PUT h.mem (bp - 4) (PACK asize 1)) (bp + asize - 8)
      (PACK asize 1)) (bp + asize - 4) (PACK (csize - asize) 0)) (bp + asize - 4)
      = csize - asize + 0 := by
    rw [GET_PUT_eq, hP0, Nat.mod_eq_of_lt (by omega)]
    omega
  have e3f := decode_fields _ _ _ _ e3 (by omega) (by omega)
  have e4 : GET (PUT (PUT (PUT (PUT h.mem (bp - 4) (PACK asize 1)) (bp + asize - 8)
      (PACK asize 1)) (bp + asize - 4) (PACK (csize - asize) 0)) (bp + csize - 8)
      (PACK (csize - asize) 0)) (bp + asize - 4) = csize - asize + 0 := by
    rw [GET_PUT_ne _ _ _ _ (by omega) (by omega) (by omega)]
    exact e3
  have e4f := decode_fields _ _ _ _ e4 (by omega) (by omega)
  simp only [place]
  rw [hcs, sub64_of_le csize asize hac (by omega)]
  rw [if_pos (show 2 * DSIZE ≤ csize - asize from by unfold DSIZE; omega)]
  simp only [HDRP, FTRP, NEXT_BLKP, WSIZE, DSIZE]
  rw [e1f.1, e2f.1, e3f.1]
  have ha1 : bp + asize + (csize - asize) - 8 = bp + csize - 8 := by omega
  rw [ha1, e4f.1]
  have ha2 : bp + asize + (csize - asize) = bp + csize := by omega
  rw [ha2]

/-- Consume outcome of `place`: when the leftover is below `2*DSIZE`,
the whole block's header/footer become `(csize, allocated)`; the cursor
advances to the next block if it sat on `bp`. -/
theorem place_consume_eq (h : Heap) (bp asize csize : Nat)
    (hcs : GET_SIZE h.mem (HDRP bp) = csize)
    (hbp : 8 ∣ bp) (hbp8 : 8 ≤ bp) (h8c : 8 ∣ csize)
    (hc16 : 16 ≤ csize) (hac : asize ≤ csize) (hlt : csize < 4294967296)
    (hsmall : csize - asize < 16) :
    place h bp asize = { h with
      mem := PUT (PUT h.mem (bp - 4) (PACK csize 1)) (bp + csize - 8) (PACK csize 1),
      next_fit := if h.next_fit = bp then bp + csize else h.next_fit } := by
  have hPA : PACK csize 1 = csize + 1 := PACK_one _ h8c
  have e1 : GET (PUT h.mem (bp - 4) (PACK csize 1)) (bp - 4) = csize + 1 := by
    rw [GET_PUT_eq, hPA, Nat.mod_eq_of_lt (by omega)]
  have e1f := decode_fields _ _ _ _ e1 h8c (by omega)
  have e2 : GET (PUT (PUT h.mem (bp - 4) (PACK csize 1)) (bp + csize - 8) (PACK csize 1))
      (bp - 4) = csize + 1 := by
    rw [GET_PUT_ne _ _ _ _ (by omega) (by omega) (by omega), e1]
  have e2f := decode_fields _ _ _ _ e2 h8c (by omega)
  simp only [place]
  rw [hcs, sub64_of_le csize asize hac (by omega)]
  rw [if_neg (show ¬ (2 * DSIZE ≤ csize - asize) from by unfold DSIZE; omega)]
  simp only [HDRP, FTRP, NEXT_BLKP, WSIZE, DSIZE]
  rw [e1f.1, e2f.1]

/-! ### Claim C3 — split-or-consume placement -/

/-- C3: placement of an adjusted size `asize` into a free block of size
`csize ≥ asize` splits exactly when the leftover `csize - asize` is at
least the 16-byte minimum block size: then the block's header and
footer become `(asize, allocated)` and the immediately following
region's header and footer become `(csize - asize, free)`; otherwise
the whole block's header and footer become `(csize, allocated)`.  All
other aligned words are untouched. -/
theorem C3_place_splits_iff_leftover (h : Heap) (bp asize csize : Nat)
    (hcs : GET_SIZE h.mem (HDRP bp) = csize)
    (hbp : 8 ∣ bp) (hbp8 : 8 ≤ bp) (h8a : 8 ∣ asize) (h8c : 8 ∣ csize)
    (ha16 : 16 ≤ asize) (hac : asize ≤ csize) (hlt : csize < 4294967296) :
    (16 ≤ csize - asize →
      (GET_SIZE (place h bp asize).mem (HDRP bp) = asize ∧
        GET_ALLOC (place h bp asize).mem (HDRP bp) = 1) ∧
      (GET_SIZE (place h bp asize).mem (bp + asize - 8) = asize ∧
        GET_ALLOC (place h bp asize).mem (bp + asize - 8) = 1) ∧
      (GET_SIZE (place h bp asize).mem (HDRP (bp + asize)) = csize - asize ∧
        GET_ALLOC (place h bp asize).mem (HDRP (bp + asize)) = 0) ∧
      (GET_SIZE (place h bp asize).mem (bp + csize - 8) = csize - asize ∧
        GET_ALLOC (place h bp asize).mem (bp + csize - 8) = 0) ∧
      (∀ q, 4 ∣ q → q ≠ bp - 4 → q ≠ bp + asize - 8 → q ≠ bp + asize - 4 →
        q ≠ bp + csize - 8 → GET (place h bp asize).mem q = GET h.mem q)) ∧
    (csize - asize < 16 →
      (GET_SIZE (place h bp asize).mem (HDRP bp) = csize ∧
        GET_ALLOC (place h bp asize).mem (HDRP bp) = 1) ∧
      (GET_SIZE (place h bp asize).mem (bp + csize - 8) = csize ∧
        GET_ALLOC (place h bp asize).mem (bp + csize - 8) = 1) ∧
      (∀ q, 4 ∣ q → q ≠ bp - 4 → q ≠ bp + csize - 8 →
        GET (place h bp asize).mem q = GET h.mem q)) := by
  have hca : csize - asize < 4294967296 := by omega
  have hHD : HDRP bp = bp - 4 := rfl
  have hHD2 : HDRP (bp + asize) = bp + asize - 4 := rfl
  constructor
  · intro hsplit
    rw [place_split_eq h bp asize csize hcs hbp hbp8 h8a h8c ha16 hac hlt hsplit]
    simp only [hHD, hHD2]
    have g4 : GET (PUT (PUT (PUT (PUT h.mem (bp - 4) (PACK asize 1)) (bp + asize - 8)
        (PACK asize 1)) (bp + asize - 4) (PACK (csize - asize) 0)) (bp + csize - 8)
        (PACK (csize - asize) 0)) (bp + csize - 8) = (csize - asize) + 0 := by
      rw [GET_PUT_eq, PACK_zero, Nat.mod_eq_of_lt (by omega)]
      omega
    have g3 : GET (PUT (PUT (PUT (PUT h.mem (bp - 4) (PACK asize 1)) (bp + asize - 8)
        (PACK asize 1)) (bp + asize - 4) (PACK (csize - asize) 0)) (bp + csize - 8)
        (PACK (csize - asize) 0)) (bp + asize - 4) = (csize - asize) + 0 := by
      rw [GET_PUT_ne _ _ _ _ (by omega) (by omega) (by omega), GET_PUT_eq, PACK_zero,
        Nat.mod_eq_of_lt (by omega)]
      omega
    have g2 : GET (PUT (PUT (PUT (PUT h.mem (bp - 4) (PACK asize 1)) (bp + asize - 8)
        (PACK asize 1)) (bp + asize - 4) (PACK (csize - asize) 0)) (bp + csize - 8)
        (PACK (csize - asize) 0)) (bp + asize - 8) = asize + 1 := by
      rw [GET_PUT_ne _ _ _ _ (by omega) (by omega) (by omega),
        GET_PUT_ne _ _ _ _ (by omega) (by omega) (by omega),
        GET_PUT_eq, PACK_one _ h8a, Nat.mod_eq_of_lt (by omega)]
    have g1 : GET (PUT (PUT (PUT (PUT h.mem (bp - 4) (PACK asize 1)) (bp + asize - 8)
        (PACK asize 1)) (bp + asize - 4) (PACK (csize - asize) 0)) (bp + csize - 8)
        (PACK (csize - asize) 0)) (bp - 4) = asize + 1 := by
      rw [GET_PUT_ne _ _ _ _ (by omega) (by omega) (by omega),
        GET_PUT_ne _ _ _ _ (by omega) (by omega) (by omega),
        GET_PUT_ne _ _ _ _ (by omega) (by omega) (by omega),
        GET_PUT_eq, PACK_one _ h8a, Nat.mod_eq_of_lt (by omega)]
    refine ⟨decode_fields _ _ _ _ g1 h8a (by omega),
      decode_fields _ _ _ _ g2 h8a (by omega),
      decode_fields _ _ _ _ g3 (by omega) (by omega),
      decode_fields _ _ _ _ g4 (by omega) (by omega), ?_⟩
    intro q hq4 hq1 hq2 hq3 hq4n
    rw [GET_PUT_out _ _ _ _ (by omega), GET_PUT_out _ _ _ _ (by omega),
      GET_PUT_out _ _ _ _ (by omega), GET_PUT_out _ _ _ _ (by omega)]
  · intro hsmall
    rw [place_consume_eq h bp asize csize hcs hbp hbp8 h8c (by omega) hac hlt hsmall]
    simp only [hHD]
    have g2 : GET (PUT (PUT h.mem (bp - 4) (PACK csize 1)) (bp + csize - 8)
        (PACK csize 1)) (bp + csize - 8) = csize + 1 := by
      rw [GET_PUT_eq, PACK_one _ h8c, Nat.mod_eq_of_lt (by omega)]
    have g1 : GET (PUT (PUT h.mem (bp - 4) (PACK csize 1)) (bp + csize - 8)
        (PACK csize 1)) (bp - 4) = csize + 1 := by
      rw [GET_PUT_ne _ _ _ _ (by omega) (by omega) (by omega),
        GET_PUT_eq, PACK_one _ h8c, Nat.mod_eq_of_lt (by omega)]
    refine ⟨decode_fields _ _ _ _ g1 h8c (by omega),
      decode_fields _ _ _ _ g2 h8c (by omega), ?_⟩
    intro q hq4 hq1 hq2
    rw [GET_PUT_out _ _ _ _ (by omega), GET_PUT_out _ _ _ _ (by omega)]

/-- C3 witness: the split case at the concrete free block 16 (size
4096) of the initialized heap, requesting 16 bytes. -/
theorem C3_witness :
    (16 ≤ 4096 - 16 →
      (GET_SIZE (place heap0 16 16).mem (HDRP 16) = 16 ∧
        GET_ALLOC (place heap0 16 16).mem (HDRP 16) = 1) ∧
      (GET_SIZE (place heap0 16 16).mem (16 + 16 - 8) = 16 ∧
        GET_ALLOC (place heap0 16 16).mem (16 + 16 - 8) = 1) ∧
      (GET_SIZE (place heap0 16 16).mem (HDRP (16 + 16)) = 4096 - 16 ∧
        GET_ALLOC (place heap0 16 16).mem (HDRP (16 + 16)) = 0) ∧
      (GET_SIZE (place heap0 16 16).mem (16 + 4096 - 8) = 4096 - 16 ∧
        GET_ALLOC (place heap0 16 16).mem (16 + 4096 - 8) = 0) ∧
      (∀ q, 4 ∣ q → q ≠ 16 - 4 → q ≠ 16 + 16 - 8 → q ≠ 16 + 16 - 4 →
        q ≠ 16 + 4096 - 8 → GET (place heap0 16 16).mem q = GET heap0.mem q)) ∧
    (4096 - 16 < 16 →
      (GET_SIZE (place heap0 16 16).mem (HDRP 16) = 4096 ∧
        GET_ALLOC (place heap0 16 16).mem (HDRP 16) = 1) ∧
      (GET_SIZE (place heap0 16 16).mem (16 + 4096 - 8) = 4096 ∧
        GET_ALLOC (place heap0 16 16).mem (16 + 4096 - 8) = 1) ∧
      (∀ q, 4 ∣ q → q ≠ 16 - 4 → q ≠ 16 + 4096 - 8 →
        GET (place heap0 16 16).mem q = GET heap0.mem q)) :=
  C3_place_splits_iff_leftover heap0 16 16 4096 (by decide) (by decide) (by decide)
    (by decide) (by decide) (by decide) (by decide) (by decide)

/-! ### The four cases of `coalesce` -/

/-- Case 1 of `coalesce`: both physical neighbours allocated — the
block is returned unchanged (the early `return bp` also skips the
cursor adjustment). -/
theorem coalesce_case1_eq (h : Heap) (bp psize size nsize : Nat)
    (hpf : GET h.mem (bp - 8) = psize + 1)
    (hph : GET h.mem (bp - psize - 4) = psize + 1)
    (hbsz : GET_SIZE h.mem (bp - 4) = size)
    (hnh : GET h.mem (bp + size - 4) = nsize + 1)
    (h8bp : 8 ∣ bp) (h8p : 8 ∣ psize) (h8n : 8 ∣ nsize)
    (hp8 : 8 ≤ psize) (hs8 : 8 ≤ size)
    (hbp : psize + 8 ≤ bp) :
    coalesce h bp = (bp, h) := by
  have hpfd := decode_fields _ _ _ _ hpf h8p (by omega)
  have hphd := decode_fields _ _ _ _ hph h8p (by omega)
  have hnhd := decode_fields _ _ _ _ hnh h8n (by omega)
  have hPB : PREV_BLKP h.mem bp = bp - psize := by
    unfold PREV_BLKP DSIZE
    rw [hpfd.1]
  have hFPB : FTRP h.mem (bp - psize) = bp - 8 := by
    unfold FTRP HDRP WSIZE DSIZE
    rw [hphd.1]
    omega
  have hNB : NEXT_BLKP h.mem bp = bp + size := by
    unfold NEXT_BLKP WSIZE
    rw [hbsz]
  simp only [coalesce, hPB, hFPB, hNB]
  rw [if_pos]
  constructor
  · rw [hpfd.2]
    omega
  · show GET_ALLOC h.mem (HDRP (bp + size)) ≠ 0
    rw [show HDRP (bp + size) = bp + size - 4 from rfl, hnhd.2]
    omega

/-- Case 2 of `coalesce`: only the successor free — the block's header
and the successor's footer position are rewritten with the combined
size, free; the identity stays `bp`. -/
theorem coalesce_case2_eq (h : Heap) (bp psize size nsize : Nat)
    (hpf : GET h.mem (bp - 8) = psize + 1)
    (hph : GET h.mem (bp - psize - 4) = psize + 1)
    (hbsz : GET_SIZE h.mem (bp - 4) = size)
    (hnh : GET h.mem (bp + size - 4) = nsize + 0)
    (h8bp : 8 ∣ bp) (h8p : 8 ∣ psize) (h8s : 8 ∣ size) (h8n : 8 ∣ nsize)
    (hp8 : 8 ≤ psize) (hs8 : 8 ≤ size) (hn8 : 8 ≤ nsize)
    (hbp : psize + 8 ≤ bp)
    (hlt : size + nsize < 4294967296) :
    coalesce h bp = (bp, { h with
      mem := PUT (PUT h.mem (bp - 4) (PACK (size + nsize) 0))
        (bp + size + nsize - 8) (PACK (size + nsize) 0),
      next_fit := if bp ≤ h.next_fit ∧ h.next_fit < bp + size + nsize then bp
        else h.next_fit }) := by
  have hpfd := decode_fields _ _ _ _ hpf h8p (by omega)
  have hphd := decode_fields _ _ _ _ hph h8p (by omega)
  have hnhd := decode_fields _ _ _ _ hnh h8n (by omega)
  have hPB : PREV_BLKP h.mem bp = bp - psize := by
    unfold PREV_BLKP DSIZE
    rw [hpfd.1]
  have hFPB : FTRP h.mem (bp - psize) = bp - 8 := by
    unfold FTRP HDRP WSIZE DSIZE
    rw [hphd.1]
    omega
  have hNB : NEXT_BLKP h.mem bp = bp + size := by
    unfold NEXT_BLKP WSIZE
    rw [hbsz]
  have hHN : HDRP (bp + size) = bp + size - 4 := rfl
  have hHB : HDRP bp = bp - 4 := rfl
  -- header read-back after the first write
  have e1 : GET (PUT h.mem (bp - 4) (PACK (size + nsize) 0)) (bp - 4)
      = (size + nsize) + 0 := by
    rw [GET_PUT_eq, PACK_zero, Nat.mod_eq_of_lt (by omega)]
    omega
  have e1f := decode_fields _ _ _ _ e1 (by omega) (by omega)
  have e2 : GET (PUT (PUT h.mem (bp - 4) (PACK (size + nsize) 0))
      (bp + size + nsize - 8) (PACK (size + nsize) 0)) (bp - 4) = (size + nsize) + 0 := by
    rw [GET_PUT_ne _ _ _ _ (by omega) (by omega) (by omega)]
    exact e1
  have e2f := decode_fields _ _ _ _ e2 (by omega) (by omega)
  have eF : FTRP (PUT h.mem (bp - 4) (PACK (size + nsize) 0)) bp
      = bp + size + nsize - 8 := by
    unfold FTRP HDRP WSIZE DSIZE
    rw [e1f.1]
    omega
  have eN : NEXT_BLKP (PUT (PUT h.mem (bp - 4) (PACK (size + nsize) 0))
      (bp + size + nsize - 8) (PACK (size + nsize) 0)) bp = bp + size + nsize := by
    unfold NEXT_BLKP WSIZE
    rw [e2f.1]
    omega
  simp only [coalesce, hPB, hFPB, hNB, hHN, hHB, hpfd.2, hnhd.2, hbsz, hnhd.1]
  rw [if_neg (by decide), if_pos (by decide)]
  simp only [eF, eN]

/-- Case 3 of `coalesce`: only the predecessor free — the block's
footer and the predecessor's header are rewritten with the combined
size, free; the identity becomes the predecessor's address. -/
theorem coalesce_case3_eq (h : Heap) (bp psize size nsize : Nat)
    (hpf : GET h.mem (bp - 8) = psize + 0)
    (hph : GET h.mem (bp - psize - 4) = psize + 0)
    (hbsz : GET_SIZE h.mem (bp - 4) = size)
    (hnh : GET h.mem (bp + size - 4) = nsize + 1)
    (h8bp : 8 ∣ bp) (h8p : 8 ∣ psize) (h8s : 8 ∣ size) (h8n : 8 ∣ nsize)
    (hp8 : 8 ≤ psize) (hs8 : 8 ≤ size)
    (hbp : psize + 8 ≤ bp)
    (hlt : size + psize < 4294967296) :
    coalesce h bp = (bp - psize, { h with
      mem := PUT (PUT h.mem (bp + size - 8) (PACK (size + psize) 0))
        (bp - psize - 4) (PACK (size + psize) 0),
      next_fit := if bp - psize ≤ h.next_fit ∧ h.next_fit < bp + size then bp - psize
        else h.next_fit }) := by
  have hpfd := decode_fields _ _ _ _ hpf h8p (by omega)
  have hphd := decode_fields _ _ _ _ hph h8p (by omega)
  have hnhd := decode_fields _ _ _ _ hnh h8n (by omega)
  have hPB : PREV_BLKP h.mem bp = bp - psize := by
    unfold PREV_BLKP DSIZE
    rw [hpfd.1]
  have hFPB : FTRP h.mem (bp - psize) = bp - 8 := by
    unfold FTRP HDRP WSIZE DSIZE
    rw [hphd.1]
    omega
  have hNB : NEXT_BLKP h.mem bp = bp + size := by
    unfold NEXT_BLKP WSIZE
    rw [hbsz]
  have hHN : HDRP (bp + size) = bp + size - 4 := rfl
  have hHB : HDRP bp = bp - 4 := rfl
  have hHP : HDRP (bp - psize) = bp - psize - 4 := rfl
  have hFB : FTRP h.mem bp = bp + size - 8 := by
    unfold FTRP HDRP WSIZE DSIZE
    rw [hbsz]
  -- prev footer survives the b-footer write
  have eP1 : GET (PUT h.mem (bp + size - 8) (PACK (size + psize) 0)) (bp - 8)
      = psize + 0 := by
    rw [GET_PUT_out _ _ _ _ (by omega)]
    exact hpf
  have eP1f := decode_fields _ _ _ _ eP1 h8p (by omega)
  have ePB1 : PREV_BLKP (PUT h.mem (bp + size - 8) (PACK (size + psize) 0)) bp
      = bp - psize := by
    unfold PREV_BLKP DSIZE
    rw [eP1f.1]
  -- prev footer also survives the prev-header write
  have eP2 : GET (PUT (PUT h.mem (bp + size - 8) (PACK (size + psize) 0))
      (bp - psize - 4) (PACK (size + psize) 0)) (bp - 8) = psize + 0 := by
    rw [GET_PUT_out _ _ _ _ (by omega)]
    exact eP1
  have eP2f := decode_fields _ _ _ _ eP2 h8p (by omega)
  have ePB2 : PREV_BLKP (PUT (PUT h.mem (bp + size - 8) (PACK (size + psize) 0))
      (bp - psize - 4) (PACK (size + psize) 0)) bp = bp - psize := by
    unfold PREV_BLKP DSIZE
    rw [eP2f.1]
  -- merged header read-back
  have eH : GET (PUT (PUT h.mem (bp + size - 8) (PACK (size + psize) 0))
      (bp - psize - 4) (PACK (size + psize) 0)) (bp - psize - 4)
      = (size + psize) + 0 := by
    rw [GET_PUT_eq, PACK_zero, Nat.mod_eq_of_lt (by omega)]
    omega
  have eHf := decode_fields _ _ _ _ eH (by omega) (by omega)
  have eN : NEXT_BLKP (PUT (PUT h.mem (bp + size - 8) (PACK (size + psize) 0))
      (bp - psize - 4) (PACK (size + psize) 0)) (bp - psize) = bp + size := by
    unfold NEXT_BLKP WSIZE
    rw [show bp - psize - 4 = bp - psize - 4 from rfl, eHf.1]
    omega
  simp only [coalesce, hPB, hFPB, hNB, hHN, hHB, hHP, hpfd.2, hnhd.2, hbsz,
    hphd.1, hFB, ePB1, ePB2, eN]
  rw [if_neg (by decide), if_neg (by decide), if_pos (by decide)]
  dsimp only
  simp only [eN]

/-- Case 4 of `coalesce`: both neighbours free — the predecessor's
header and the successor's footer are rewritten with the total of the
three sizes, free; the identity becomes the predecessor's address. -/
theorem coalesce_case4_eq (h : Heap) (bp psize size nsize : Nat)
    (hpf : GET h.mem (bp - 8) = psize + 0)
    (hph : GET h.mem (bp - psize - 4) = psize + 0)
    (hbsz : GET_SIZE h.mem (bp - 4) = size)
    (hnh : GET h.mem (bp + size - 4) = nsize + 0)
    (hnf2 : GET h.mem (bp + size + nsize - 8) = nsize + 0)
    (h8bp : 8 ∣ bp) (h8p : 8 ∣ psize) (h8s : 8 ∣ size) (h8n : 8 ∣ nsize)
    (hp8 : 8 ≤ psize) (hs8 : 8 ≤ size) (hn8 : 8 ≤ nsize)
    (hbp : psize + 8 ≤ bp)
    (hlt : size + psize + nsize < 4294967296) :
    coalesce h bp = (bp - psize, { h with
      mem := PUT (PUT h.mem (bp - psize - 4) (PACK (size + psize + nsize) 0))
        (bp + size + nsize - 8) (PACK (size + psize + nsize) 0),
      next_fit := if bp - psize ≤ h.next_fit ∧ h.next_fit < bp + size + nsize
        then bp - psize else h.next_fit }) := by
  have hpfd := decode_fields _ _ _ _ hpf h8p (by omega)
  have hphd := decode_fields _ _ _ _ hph h8p (by omega)
  have hnhd := decode_fields _ _ _ _ hnh h8n (by omega)
  have hnf2d := decode_fields _ _ _ _ hnf2 h8n (by omega)
  have hPB : PREV_BLKP h.mem bp = bp - psize := by
    unfold PREV_BLKP DSIZE
    rw [hpfd.1]
  have hFPB : FTRP h.mem (bp - psize) = bp - 8 := by
    unfold FTRP HDRP WSIZE DSIZE
    rw [hphd.1]
    omega
  have hNB : NEXT_BLKP h.mem bp = bp + size := by
    unfold NEXT_BLKP WSIZE
    rw [hbsz]
  have hHN : HDRP (bp + size) = bp + size - 4 := rfl
  have hHB : HDRP bp = bp - 4 := rfl
  have hHP : HDRP (bp - psize) = bp - psize - 4 := rfl
  have hFN : FTRP h.mem (bp + size) = bp + size + nsize - 8 := by
    unfold FTRP HDRP WSIZE DSIZE
    rw [hnhd.1]
  -- b's header survives the prev-header write
  have eB1 : GET (PUT h.mem (bp - psize - 4) (PACK (size + psize + nsize) 0)) (bp - 4)
      = GET h.mem (bp - 4) :=
    GET_PUT_out _ _ _ _ (by omega)
  have eB1s : GET_SIZE (PUT h.mem (bp - psize - 4) (PACK (size + psize + nsize) 0))
      (bp - 4) = size := by
    unfold GET_SIZE
    rw [eB1]
    exact hbsz
  have eNB1 : NEXT_BLKP (PUT h.mem (bp - psize - 4) (PACK (size + psize + nsize) 0)) bp
      = bp + size := by
    unfold NEXT_BLKP WSIZE
    rw [eB1s]
  -- next header survives the prev-header write
  have eN1 : GET (PUT h.mem (bp - psize - 4) (PACK (size + psize + nsize) 0))
      (bp + size - 4) = nsize + 0 := by
    rw [GET_PUT_out _ _ _ _ (by omega)]
    exact hnh
  have eN1f := decode_fields _ _ _ _ eN1 h8n (by omega)
  have eFN1 : FTRP (PUT h.mem (bp - psize - 4) (PACK (size + psize + nsize) 0))
      (bp + size) = bp + size + nsize - 8 := by
    unfold FTRP HDRP WSIZE DSIZE
    rw [eN1f.1]
  -- prev footer survives both writes
  have eP2 : GET (PUT (PUT h.mem (bp - psize - 4) (PACK (size + psize + nsize) 0))
      (bp + size + nsize - 8) (PACK (size + psize + nsize) 0)) (bp - 8)
      = psize + 0 := by
    rw [GET_PUT_out _ _ _ _ (by omega), GET_PUT_out _ _ _ _ (by omega)]
    exact hpf
  have eP2f := decode_fields _ _ _ _ eP2 h8p (by omega)
  have ePB2 : PREV_BLKP (PUT (PUT h.mem (bp - psize - 4) (PACK (size + psize + nsize) 0))
      (bp + size + nsize - 8) (PACK (size + psize + nsize) 0)) bp = bp - psize := by
    unfold PREV_BLKP DSIZE
    rw [eP2f.1]
  -- merged header read-back
  have eH : GET (PUT (PUT h.mem (bp - psize - 4) (PACK (size + psize + nsize) 0))
      (bp + size + nsize - 8) (PACK (size + psize + nsize) 0)) (bp - psize - 4)
      = (size + psize + nsize) + 0 := by
    rw [GET_PUT_ne _ _ _ _ (by omega) (by omega) (by omega), GET_PUT_eq, PACK_zero,
      Nat.mod_eq_of_lt (by omega)]
    omega
  have eHf := decode_fields _ _ _ _ eH (by omega) (by omega)
  have eN2 : NEXT_BLKP (PUT (PUT h.mem (bp - psize - 4) (PACK (size + psize + nsize) 0))
      (bp + size + nsize - 8) (PACK (size + psize + nsize) 0)) (bp - psize)
      = bp + size + nsize := by
    unfold NEXT_BLKP WSIZE
    rw [show bp - psize - 4 = bp - psize - 4 from rfl, eHf.1]
    omega
  simp only [coalesce, hPB, hFPB, hNB, hHN, hHB, hHP, hpfd.2, hnhd.2, hbsz,
    hphd.1, hFN, hnf2d.1, eNB1, eFN1, ePB2, eN2]
  rw [if_neg (by decide), if_neg (by decide), if_neg (by decide)]
  dsimp only
  simp only [eN2]

/-! ### Claim C2 — boundary-tag coalescing -/

/-- C2: for a block `bp` whose physical predecessor (footer at
`bp - 8`, size `psize`, flag `pa`) and successor (header at
`bp + size - 4`, size `nsize`, flag `na`) satisfy the block
invariants — the successor may be any block, including the epilogue
header itself (`nsize = 0`, allocated); its footer and 8-byte minimum
are assumed only when it is free — `coalesce` behaves by case on the
two allocated flags:
both set — `bp` returned with the heap unchanged; only successor free
— header of `bp` and the successor's footer position rewritten to the
combined size, free, identity `bp`; only predecessor free —
predecessor's header and `bp`'s footer rewritten, identity the
predecessor; both free — predecessor's header and successor's footer
rewritten to the total of all three sizes, identity the predecessor.
All other aligned words are untouched. -/
theorem C2_coalesce_four_cases (h : Heap) (bp psize size nsize pa na : Nat)
    (hpf : GET h.mem (bp - 8) = psize + pa)
    (hph : GET h.mem (bp - psize - 4) = psize + pa)
    (hbsz : GET_SIZE h.mem (bp - 4) = size)
    (hnh : GET h.mem (bp + size - 4) = nsize + na)
    (hnfree : na = 0 → GET h.mem (bp + size + nsize - 8) = nsize + na ∧ 8 ≤ nsize)
    (h8bp : 8 ∣ bp) (h8p : 8 ∣ psize) (h8s : 8 ∣ size) (h8n : 8 ∣ nsize)
    (hp8 : 8 ≤ psize) (hs8 : 8 ≤ size)
    (hbp : psize + 8 ≤ bp)
    (hlt : size + psize + nsize < 4294967296) :
    (pa = 1 ∧ na = 1 → coalesce h bp = (bp, h)) ∧
    (pa = 1 ∧ na = 0 →
      (coalesce h bp).1 = bp ∧
      (GET_SIZE (coalesce h bp).2.mem (HDRP bp) = size + nsize ∧
        GET_ALLOC (coalesce h bp).2.mem (HDRP bp) = 0) ∧
      (GET_SIZE (coalesce h bp).2.mem (bp + size + nsize - 8) = size + nsize ∧
        GET_ALLOC (coalesce h bp).2.mem (bp + size + nsize - 8) = 0) ∧
      (∀ q, 4 ∣ q → q ≠ bp - 4 → q ≠ bp + size + nsize - 8 →
        GET (coalesce h bp).2.mem q = GET h.mem q)) ∧
    (pa = 0 ∧ na = 1 →
      (coalesce h bp).1 = bp - psize ∧
      (GET_SIZE (coalesce h bp).2.mem (HDRP (bp - psize)) = size + psize ∧
        GET_ALLOC (coalesce h bp).2.mem (HDRP (bp - psize)) = 0) ∧
      (GET_SIZE (coalesce h bp).2.mem (bp + size - 8) = size + psize ∧
        GET_ALLOC (coalesce h bp).2.mem (bp + size - 8) = 0) ∧
      (∀ q, 4 ∣ q → q ≠ bp - psize - 4 → q ≠ bp + size - 8 →
        GET (coalesce h bp).2.mem q = GET h.mem q)) ∧
    (pa = 0 ∧ na = 0 →
      (coalesce h bp).1 = bp - psize ∧
      (GET_SIZE (coalesce h bp).2.mem (HDRP (bp - psize)) = size + psize + nsize ∧
        GET_ALLOC (coalesce h bp).2.mem (HDRP (bp - psize)) = 0) ∧
      (GET_SIZE (coalesce h bp).2.mem (bp + size + nsize - 8) = size + psize + nsize ∧
        GET_ALLOC (coalesce h bp).2.mem (bp + size + nsize - 8) = 0) ∧
      (∀ q, 4 ∣ q → q ≠ bp - psize - 4 → q ≠ bp + size + nsize - 8 →
        GET (coalesce h bp).2.mem q = GET h.mem q)) := by
  have hHB : HDRP bp = bp - 4 := rfl
  have hHP : HDRP (bp - psize) = bp - psize - 4 := rfl
  refine ⟨?_, ?_, ?_, ?_⟩
  · rintro ⟨rfl, rfl⟩
    exact coalesce_case1_eq h bp psize size nsize hpf hph hbsz hnh h8bp h8p h8n hp8 hs8 hbp
  · rintro ⟨rfl, rfl⟩
    obtain ⟨hnf2, hn8⟩ := hnfree rfl
    rw [coalesce_case2_eq h bp psize size nsize hpf hph hbsz hnh h8bp h8p h8s h8n
      hp8 hs8 hn8 hbp (by omega)]
    dsimp only
    rw [hHB]
    have g2 : GET (PUT (PUT h.mem (bp - 4) (PACK (size + nsize) 0))
        (bp + size + nsize - 8) (PACK (size + nsize) 0)) (bp + size + nsize - 8)
        = (size + nsize) + 0 := by
      rw [GET_PUT_eq, PACK_zero, Nat.mod_eq_of_lt (by omega)]
      omega
    have g1 : GET (PUT (PUT h.mem (bp - 4) (PACK (size + nsize) 0))
        (bp + size + nsize - 8) (PACK (size + nsize) 0)) (bp - 4)
        = (size + nsize) + 0 := by
      rw [GET_PUT_ne _ _ _ _ (by omega) (by omega) (by omega), GET_PUT_eq, PACK_zero,
        Nat.mod_eq_of_lt (by omega)]
      omega
    refine ⟨rfl, decode_fields _ _ _ _ g1 (by omega) (by omega),
      decode_fields _ _ _ _ g2 (by omega) (by omega), ?_⟩
    intro q hq4 hq1 hq2
    rw [GET_PUT_out _ _ _ _ (by omega), GET_PUT_out _ _ _ _ (by omega)]
  · rintro ⟨rfl, rfl⟩
    rw [coalesce_case3_eq h bp psize size nsize hpf hph hbsz hnh h8bp h8p h8s h8n
      hp8 hs8 hbp (by omega)]
    dsimp only
    rw [hHP]
    have g2 : GET (PUT (PUT h.mem (bp + size - 8) (PACK (size + psize) 0))
        (bp - psize - 4) (PACK (size + psize) 0)) (bp - psize - 4)
        = (size + psize) + 0 := by
      rw [GET_PUT_eq, PACK_zero, Nat.mod_eq_of_lt (by omega)]
      omega
    have g1 : GET (PUT (PUT h.mem (bp + size - 8) (PACK (size + psize) 0))
        (bp - psize - 4) (PACK (size + psize) 0)) (bp + size - 8)
        = (size + psize) + 0 := by
      rw [GET_PUT_ne _ _ _ _ (by omega) (by omega) (by omega), GET_PUT_eq, PACK_zero,
        Nat.mod_eq_of_lt (by omega)]
      omega
    refine ⟨rfl, decode_fields _ _ _ _ g2 (by omega) (by omega),
      decode_fields _ _ _ _ g1 (by omega) (by omega), ?_⟩
    intro q hq4 hq1 hq2
    rw [GET_PUT_out _ _ _ _ (by omega), GET_PUT_out _ _ _ _ (by omega)]
  · rintro ⟨rfl, rfl⟩
    obtain ⟨hnf2, hn8⟩ := hnfree rfl
    rw [coalesce_case4_eq h bp psize size nsize hpf hph hbsz hnh hnf2 h8bp h8p h8s h8n
      hp8 hs8 hn8 hbp (by omega)]
    dsimp only
    rw [hHP]
    have g2 : GET (PUT (PUT h.mem (bp - psize - 4) (PACK (size + psize + nsize) 0))
        (bp + size + nsize - 8) (PACK (size + psize + nsize) 0)) (bp + size + nsize - 8)
        = (size + psize + nsize) + 0 := by
      rw [GET_PUT_eq, PACK_zero, Nat.mod_eq_of_lt (by omega)]
      omega
    have g1 : GET (PUT (PUT h.mem (bp - psize - 4) (PACK (size + psize + nsize) 0))
        (bp + size + nsize - 8) (PACK (size + psize + nsize) 0)) (bp - psize - 4)
        = (size + psize + nsize) + 0 := by
      rw [GET_PUT_ne _ _ _ _ (by omega) (by omega) (by omega), GET_PUT_eq, PACK_zero,
        Nat.mod_eq_of_lt (by omega)]
      omega
    refine ⟨rfl, decode_fields _ _ _ _ g1 (by omega) (by omega),
      decode_fields _ _ _ _ g2 (by omega) (by omega), ?_⟩
    intro q hq4 hq1 hq2
    rw [GET_PUT_out _ _ _ _ (by omega), GET_PUT_out _ _ _ _ (by omega)]

/-- C2 witness: the successor-free case (`pa = 1`, `na = 0`) at block
16 of `heap1` (freeing it merges with the 3984-byte successor at
128). -/
theorem C2_witness :
    (1 = 1 ∧ 0 = 1 → coalesce heap1 16 = (16, heap1)) ∧
    (1 = 1 ∧ 0 = 0 →
      (coalesce heap1 16).1 = 16 ∧
      (GET_SIZE (coalesce heap1 16).2.mem (HDRP 16) = 112 + 3984 ∧
        GET_ALLOC (coalesce heap1 16).2.mem (HDRP 16) = 0) ∧
      (GET_SIZE (coalesce heap1 16).2.mem (16 + 112 + 3984 - 8) = 112 + 3984 ∧
        GET_ALLOC (coalesce heap1 16).2.mem (16 + 112 + 3984 - 8) = 0) ∧
      (∀ q, 4 ∣ q → q ≠ 16 - 4 → q ≠ 16 + 112 + 3984 - 8 →
        GET (coalesce heap1 16).2.mem q = GET heap1.mem q)) ∧
    (1 = 0 ∧ 0 = 1 →
      (coalesce heap1 16).1 = 16 - 8 ∧
      (GET_SIZE (coalesce heap1 16).2.mem (HDRP (16 - 8)) = 112 + 8 ∧
        GET_ALLOC (coalesce heap1 16).2.mem (HDRP (16 - 8)) = 0) ∧
      (GET_SIZE (coalesce heap1 16).2.mem (16 + 112 - 8) = 112 + 8 ∧
        GET_ALLOC (coalesce heap1 16).2.mem (16 + 112 - 8) = 0) ∧
      (∀ q, 4 ∣ q → q ≠ 16 - 8 - 4 → q ≠ 16 + 112 - 8 →
        GET (coalesce heap1 16).2.mem q = GET heap1.mem q)) ∧
    (1 = 0 ∧ 0 = 0 →
      (coalesce heap1 16).1 = 16 - 8 ∧
      (GET_SIZE (coalesce heap1 16).2.mem (HDRP (16 - 8)) = 112 + 8 + 3984 ∧
        GET_ALLOC (coalesce heap1 16).2.mem (HDRP (16 - 8)) = 0) ∧
      (GET_SIZE (coalesce heap1 16).2.mem (16 + 112 + 3984 - 8) = 112 + 8 + 3984 ∧
        GET_ALLOC (coalesce heap1 16).2.mem (16 + 112 + 3984 - 8) = 0) ∧
      (∀ q, 4 ∣ q → q ≠ 16 - 8 - 4 → q ≠ 16 + 112 + 3984 - 8 →
        GET (coalesce heap1 16).2.mem q = GET heap1.mem q)) :=
  C2_coalesce_four_cases heap1 16 8 112 3984 1 0 (by decide) (by decide) (by decide)
    (by decide) (by decide) (by decide) (by decide) (by decide) (by decide)
    (by decide) (by decide) (by decide) (by decide)

/-! ### Claim C6 — cursor advance after placement (code bug) -/

/-- C6 (falsifying run): `mm_malloc(100)` on the initialized heap finds
block 16 via the next-fit search (which parks the cursor on it) and
splits it.  Afterwards the cursor still sits at 16 — now an allocated
block — instead of the block immediately after it (the free remainder
at 128): the split branch reassigned the local `bp` to the remainder
before the `next_fit == bp` comparison, so the cursor is never
advanced in the split case, contradicting the claim (and the code's
own comment). -/
theorem C6_cursor_left_on_allocated_block :
    (mm_malloc heap0 100 20).isSome = true ∧
    ((mm_malloc heap0 100 20).get!).1 = some 16 ∧
    ((mm_malloc heap0 100 20).get!).2.next_fit = 16 ∧
    GET_ALLOC ((mm_malloc heap0 100 20).get!).2.mem (HDRP 16) = 1 ∧
    NEXT_BLKP ((mm_malloc heap0 100 20).get!).2.mem 16 = 128 :=
  ⟨by decide, by decide, by decide, by decide, by decide⟩

/-! ### Claim C1 — the next-fit search -/

/-- The first `find_fit` loop returns exactly the first fitting block
of the forward traversal (epilogue-terminated), leaving the loop
variable on the found block. -/
theorem find_fit_loop1_spec (m : Mem) (asize : Nat) :
    ∀ fuel pos L, blocksTo m fuel pos = some L →
      ∃ nf, find_fit_loop1 m asize fuel pos = some (L.find? (fitsB m asize), nf) ∧
        (∀ b, L.find? (fitsB m asize) = some b → nf = b) := by
  intro fuel
  induction fuel with
  | zero => intro pos L hL; simp [blocksTo] at hL
  | succ fuel ih =>
    intro pos L hL
    unfold blocksTo at hL
    unfold find_fit_loop1
    by_cases hsz : 0 < GET_SIZE m (HDRP pos)
    · rw [if_pos hsz] at hL ⊢
      obtain ⟨L', hL', rfl⟩ : ∃ L', blocksTo m fuel (NEXT_BLKP m pos) = some L' ∧
          L = pos :: L' := by
        cases hblk : blocksTo m fuel (NEXT_BLKP m pos) with
        | none => rw [hblk] at hL; simp at hL
        | some L' => rw [hblk] at hL; simp at hL; exact ⟨L', rfl, hL.symm⟩
      by_cases hfit : GET_ALLOC m (HDRP pos) = 0 ∧ asize ≤ GET_SIZE m (HDRP pos)
      · rw [if_pos hfit]
        rw [List.find?_cons_of_pos _ (by simp [fitsB]; exact hfit)]
        exact ⟨pos, rfl, fun b hb => by simp at hb; omega⟩
      · rw [if_neg hfit]
        rw [List.find?_cons_of_neg _ (by simp [fitsB]; omega)]
        exact ih (NEXT_BLKP m pos) L' hL'
    · rw [if_neg hsz] at hL ⊢
      simp at hL
      subst hL
      exact ⟨pos, rfl, by simp⟩

/-- The wrap-around `find_fit` loop returns exactly the first fitting
block of the traversal bounded by the original cursor position. -/
theorem find_fit_loop2_spec (m : Mem) (asize bound : Nat) :
    ∀ fuel pos L, blocksBelow m bound fuel pos = some L →
      ∃ nf, find_fit_loop2 m asize bound fuel pos = some (L.find? (fitsB m asize), nf) ∧
        (∀ b, L.find? (fitsB m asize) = some b → nf = b) := by
  intro fuel
  induction fuel with
  | zero => intro pos L hL; simp [blocksBelow] at hL
  | succ fuel ih =>
    intro pos L hL
    unfold blocksBelow at hL
    unfold find_fit_loop2
    by_cases hlt : pos < bound
    · rw [if_pos hlt] at hL ⊢
      obtain ⟨L', hL', rfl⟩ : ∃ L', blocksBelow m bound fuel (NEXT_BLKP m pos) = some L' ∧
          L = pos :: L' := by
        cases hblk : blocksBelow m bound fuel (NEXT_BLKP m pos) with
        | none => rw [hblk] at hL; simp at hL
        | some L' => rw [hblk] at hL; simp at hL; exact ⟨L', rfl, hL.symm⟩
      by_cases hfit : GET_ALLOC m (HDRP pos) = 0 ∧ asize ≤ GET_SIZE m (HDRP pos)
      · rw [if_pos hfit]
        rw [List.find?_cons_of_pos _ (by simp [fitsB]; exact hfit)]
        exact ⟨pos, rfl, fun b hb => by simp at hb; omega⟩
      · rw [if_neg hfit]
        rw [List.find?_cons_of_neg _ (by simp [fitsB]; omega)]
        exact ih (NEXT_BLKP m pos) L' hL'
    · rw [if_neg hlt] at hL ⊢
      simp at hL
      subst hL
      exact ⟨pos, rfl, by simp⟩

/-- Characterization of `find_fit`: given enough fuel for both
traversals, it returns the first fitting block of the forward scan
followed by the wrap scan, leaves the cursor on a found block, and
changes nothing else of the heap state. -/
theorem find_fit_characterization (h : Heap) (asize fuel : Nat) (L1 L2 : List Nat)
    (h1 : blocksTo h.mem fuel h.next_fit = some L1)
    (h2 : blocksBelow h.mem h.next_fit fuel h.heap_listp = some L2) :
    ∃ r h2', find_fit h asize fuel = some (r, h2') ∧
      r = (L1 ++ L2).find? (fitsB h.mem asize) ∧
      (r = none ↔ ∀ b ∈ L1 ++ L2, fitsB h.mem asize b = false) ∧
      (∀ b, r = some b → h2'.next_fit = b ∧ GET_ALLOC h.mem (HDRP b) = 0 ∧
        asize ≤ GET_SIZE h.mem (HDRP b)) ∧
      h2'.mem = h.mem ∧ h2'.brk = h.brk ∧ h2'.limit = h.limit ∧
      h2'.heap_listp = h.heap_listp := by
  obtain ⟨nf1, hl1, hnf1⟩ := find_fit_loop1_spec h.mem asize fuel h.next_fit L1 h1
  simp only [find_fit]
  rw [hl1]
  cases hf1 : L1.find? (fitsB h.mem asize) with
  | some b =>
    rw [hf1] at hl1 hnf1
    refine ⟨some b, { h with next_fit := nf1 }, rfl, ?_, ?_, ?_, rfl, rfl, rfl, rfl⟩
    · rw [List.find?_append, hf1]
      rfl
    · constructor
      · intro hc; cases hc
      · intro hall
        have hnone : L1.find? (fitsB h.mem asize) = none :=
          List.find?_eq_none.mpr (fun x hx => by
            rw [hall x (List.mem_append.mpr (Or.inl hx))]
            simp)
        rw [hf1] at hnone; cases hnone
    · intro b' hb'
      cases hb'
      have hfb : fitsB h.mem asize b = true := List.find?_some hf1
      simp [fitsB] at hfb
      exact ⟨hnf1 b rfl, hfb.1, hfb.2⟩
  | none =>
    rw [hf1] at hl1
    obtain ⟨nf2, hl2, hnf2⟩ := find_fit_loop2_spec h.mem asize h.next_fit fuel h.heap_listp L2 h2
    rw [hl2]
    refine ⟨L2.find? (fitsB h.mem asize), { h with next_fit := nf2 }, rfl, ?_, ?_, ?_,
      rfl, rfl, rfl, rfl⟩
    · rw [List.find?_append, hf1]
      rfl
    · constructor
      · intro hc
        intro b hb
        rcases List.mem_append.mp hb with hbL | hbR
        · have := List.find?_eq_none.mp hf1 b hbL
          simpa using this
        · have := List.find?_eq_none.mp hc b hbR
          simpa using this
      · intro hall
        exact List.find?_eq_none.mpr (fun x hx => by
          rw [hall x (List.mem_append.mpr (Or.inr hx))]
          simp)
    · intro b hb
      have hfb : fitsB h.mem asize b = true := List.find?_some hb
      simp [fitsB] at hfb
      exact ⟨hnf2 b hb, hfb.1, hfb.2⟩

/-- C1: when the fuel covers both traversals, `find_fit(asize)` returns
the first free block of encoded size `≥ asize` in the scan order
`L1 ++ L2`, where `L1` is the block sequence from the cursor's current
position up to the epilogue (header size 0) and `L2` the sequence from
the heap's traversal start up to but excluding the cursor's start
position; it returns null exactly when no block in either range fits,
on success the cursor is left at the returned block, and nothing else
of the heap state changes. -/
theorem C1_find_fit_next_fit_search (h : Heap) (asize fuel : Nat) (L1 L2 : List Nat)
    (h1 : blocksTo h.mem fuel h.next_fit = some L1)
    (h2 : blocksBelow h.mem h.next_fit fuel h.heap_listp = some L2) :
    ∃ r h2', find_fit h asize fuel = some (r, h2') ∧
      r = (L1 ++ L2).find? (fitsB h.mem asize) ∧
      (r = none ↔ ∀ b ∈ L1 ++ L2, fitsB h.mem asize b = false) ∧
      (∀ b, r = some b → h2'.next_fit = b ∧ GET_ALLOC h.mem (HDRP b) = 0 ∧
        asize ≤ GET_SIZE h.mem (HDRP b)) ∧
      h2'.mem = h.mem ∧ h2'.brk = h.brk ∧ h2'.limit = h.limit ∧
      h2'.heap_listp = h.heap_listp :=
  find_fit_characterization h asize fuel L1 L2 h1 h2

/-- C1 witness: searching 16 bytes on the initialized heap from cursor
8: the forward scan is `[8, 16]`, the wrap scan is empty, and block 16
is found. -/
theorem C1_witness :
    ∃ r h2', find_fit heap0 16 10 = some (r, h2') ∧
      r = ([8, 16] ++ []).find? (fitsB heap0.mem 16) ∧
      (r = none ↔ ∀ b ∈ [8, 16] ++ [], fitsB heap0.mem 16 b = false) ∧
      (∀ b, r = some b → h2'.next_fit = b ∧ GET_ALLOC heap0.mem (HDRP b) = 0 ∧
        16 ≤ GET_SIZE heap0.mem (HDRP b)) ∧
      h2'.mem = heap0.mem ∧ h2'.brk = heap0.brk ∧ h2'.limit = heap0.limit ∧
      h2'.heap_listp = heap0.heap_listp :=
  C1_find_fit_next_fit_search heap0 16 10 [8, 16] [] (by decide) (by decide)

/-! ### Heap growth bookkeeping -/

/-- The adjusted size is always a multiple of 8. -/
theorem asizeOf_dvd (s : Nat) : 8 ∣ asizeOf s := by
  unfold asizeOf DSIZE
  split <;> omega

/-- Below `2^31` the `int`-typed `MAX` computes the plain maximum. -/
theorem extendsizeOf_small (a : Nat) (ha : a < 2147483648) :
    extendsizeOf a = max a 4096 := by
  unfold extendsizeOf MAXc toInt32 CHUNKSIZE
  have h1 : a % 4294967296 = a := by omega
  rw [h1]
  split
  · split <;> omega
  · omega

/-- `coalesce` never touches the break, the limit or the traversal
start. -/
theorem coalesce_snd_brk (h : Heap) (bp : Nat) :
    ((coalesce h bp).2).brk = h.brk ∧ ((coalesce h bp).2).limit = h.limit ∧
      ((coalesce h bp).2).heap_listp = h.heap_listp := by
  refine ⟨?_, ?_, ?_⟩ <;>
    (simp only [coalesce]; split <;> rfl)

/-- `place` never touches the break, the limit or the traversal
start. -/
theorem place_brk (h : Heap) (bp asize : Nat) :
    (place h bp asize).brk = h.brk ∧ (place h bp asize).limit = h.limit ∧
      (place h bp asize).heap_listp = h.heap_listp := by
  refine ⟨?_, ?_, ?_⟩ <;>
    (simp only [place]; split <;> rfl)

/-- `extend_heap` fails exactly when the rounded byte count exceeds
the growth primitive's remaining room. -/
theorem extend_heap_none_iff (h : Heap) (words : Nat) :
    extend_heap h words = none ↔
      h.limit < h.brk + (if words % 2 = 1 then (words + 1) * WSIZE else words * WSIZE) := by
  simp only [extend_heap, mem_sbrk]
  by_cases hcond : h.limit <
      h.brk + (if words % 2 = 1 then (words + 1) * WSIZE else words * WSIZE)
  · rw [if_pos hcond]
    simp [hcond]
  · rw [if_neg hcond]
    simp [hcond]

/-- On success, `extend_heap` advances the break by exactly the
rounded byte count. -/
theorem extend_heap_some_brk (h : Heap) (words cbp : Nat) (ch : Heap)
    (hE : extend_heap h words = some (cbp, ch)) :
    ch.brk = h.brk + (if words % 2 = 1 then (words + 1) * WSIZE else words * WSIZE) ∧
      ch.limit = h.limit ∧ ch.heap_listp = h.heap_listp := by
  simp only [extend_heap, mem_sbrk] at hE
  by_cases hcond : h.limit <
      h.brk + (if words % 2 = 1 then (words + 1) * WSIZE else words * WSIZE)
  · rw [if_pos hcond] at hE
    cases hE
  · rw [if_neg hcond] at hE
    simp only [Option.some.injEq] at hE
    have h2 := congrArg Prod.snd hE
    simp only at h2
    rw [← h2]
    refine ⟨?_, ?_, ?_⟩
    · rw [(coalesce_snd_brk _ _).1]
    · rw [(coalesce_snd_brk _ _).2.1]
    · rw [(coalesce_snd_brk _ _).2.2]

/-! ### Claim C7 — growth request size -/

/-- C7 (amended: restricted to adjusted sizes below `2^31`, where the
`int`-typed `MAX` is the plain maximum): when the search finds no fit,
`mm_malloc` requests raw growth of exactly `max(asize, 4096)` bytes
(already an even number of 4-byte words), failing with the null result
when the primitive cannot supply that amount, and otherwise growing
the heap by exactly that amount. -/
theorem C7_growth_request (h : Heap) (size fuel : Nat) (h1 : Heap)
    (hs : size ≠ 0) (ha : asizeOf size < 2147483648)
    (hff : find_fit h (asizeOf size) fuel = some (none, h1)) :
    (h1.limit < h1.brk + max (asizeOf size) 4096 →
      mm_malloc h size fuel = some (none, h1)) ∧
    (h1.brk + max (asizeOf size) 4096 ≤ h1.limit →
      ∃ bp h2, mm_malloc h size fuel = some (some bp, h2) ∧
        h2.brk = h1.brk + max (asizeOf size) 4096) := by
  have h8a : 8 ∣ asizeOf size := asizeOf_dvd size
  have h8m : 8 ∣ max (asizeOf size) 4096 := by
    rcases Nat.le_total (asizeOf size) 4096 with hle | hle
    · rw [Nat.max_eq_right hle]; omega
    · rw [Nat.max_eq_left hle]; exact h8a
  have em : mm_malloc h size fuel =
      (match extend_heap h1 (extendsizeOf (asizeOf size) / WSIZE) with
        | none => some (none, h1)
        | some (bp, h2) => some (some bp, place h2 bp (asizeOf size))) := by
    simp only [mm_malloc]
    rw [if_neg hs, hff]
  rw [extendsizeOf_small _ ha] at em
  have hWe : (if (max (asizeOf size) 4096) / WSIZE % 2 = 1 then
      ((max (asizeOf size) 4096) / WSIZE + 1) * WSIZE
      else (max (asizeOf size) 4096) / WSIZE * WSIZE) = max (asizeOf size) 4096 := by
    rw [if_neg (by unfold WSIZE; omega)]
    unfold WSIZE
    omega
  constructor
  · intro hc
    rw [em]
    rw [show extend_heap h1 (max (asizeOf size) 4096 / WSIZE) = none from
      (extend_heap_none_iff _ _).mpr (by rw [hWe]; omega)]
  · intro hc
    rw [em]
    rcases hE : extend_heap h1 (max (asizeOf size) 4096 / WSIZE) with _ | ⟨cbp, ch⟩
    · rw [extend_heap_none_iff] at hE
      rw [hWe] at hE
      omega
    · have hb := extend_heap_some_brk h1 _ cbp ch hE
      rw [hWe] at hb
      refine ⟨cbp, place ch cbp (asizeOf size), rfl, ?_⟩
      rw [(place_brk _ _ _).1, hb.1]

/-- C7 (counterexample): at request size `2^31` the adjusted size is
`2^31 + 8`, which exceeds the chunk size and every free block of the
initialized heap, yet the heap grows by only 4096 bytes — the `int`
conversion inside `MAX` makes the adjusted size read as negative — and
not by the rounded request size as the claim states. -/
theorem C7_grows_by_chunk_at_huge_request :
    asizeOf 2147483648 = 2147483656 ∧
    4096 < asizeOf 2147483648 ∧
    ((find_fit heap0 (asizeOf 2147483648) 20).get!).1 = none ∧
    ((mm_malloc heap0 2147483648 20).get!).2.brk = heap0.brk + 4096 ∧
    ((mm_malloc heap0 2147483648 20).get!).2.brk ≠ heap0.brk + 2147483656 :=
  ⟨by decide, by decide, by decide, by decide, by decide⟩

/-- C7 witness: request 5000 on the initialized heap: no free block
fits the adjusted size 5008, and the heap grows by exactly
`max(5008, 4096) = 5008` bytes. -/
theorem C7_witness :
    ((((find_fit heap0 (asizeOf 5000) 20).get!).2).limit <
        (((find_fit heap0 (asizeOf 5000) 20).get!).2).brk + max (asizeOf 5000) 4096 →
      mm_malloc heap0 5000 20 = some (none, ((find_fit heap0 (asizeOf 5000) 20).get!).2)) ∧
    ((((find_fit heap0 (asizeOf 5000) 20).get!).2).brk + max (asizeOf 5000) 4096 ≤
        (((find_fit heap0 (asizeOf 5000) 20).get!).2).limit →
      ∃ bp h2, mm_malloc heap0 5000 20 = some (some bp, h2) ∧
        h2.brk = (((find_fit heap0 (asizeOf 5000) 20).get!).2).brk + max (asizeOf 5000) 4096) :=
  C7_growth_request heap0 5000 20 (((find_fit heap0 (asizeOf 5000) 20).get!).2) (by decide) (by decide) rfl

/-! ### Claim C8 — when allocation returns null -/

/-- C8: given terminating fuel, `mm_malloc` returns the null result
exactly when the request is 0, or no block in the full next-fit scan
(forward list `L1`, wrap list `L2`) fits the adjusted size and the raw
growth primitive cannot supply the rounded growth request; in every
other case a block address is returned, and a growth failure yields the
null result rather than a crash. -/
theorem C8_malloc_null_iff (h : Heap) (size fuel : Nat) (L1 L2 : List Nat)
    (res : Option Nat × Heap)
    (hm : mm_malloc h size fuel = some res)
    (hL1 : blocksTo h.mem fuel h.next_fit = some L1)
    (hL2 : blocksBelow h.mem h.next_fit fuel h.heap_listp = some L2) :
    res.1 = none ↔ size = 0 ∨
      ((∀ b ∈ L1 ++ L2, fitsB h.mem (asizeOf size) b = false) ∧
        h.limit < h.brk + growthRequest size) := by
  by_cases hs : size = 0
  · subst hs
    simp only [mm_malloc, if_pos rfl] at hm
    have : res = (none, h) := by
      injection hm with hm2
      exact hm2.symm
    subst this
    simp
  · obtain ⟨r, h', hff, hr, hiff, hsome, hmem, hbrk, hlim, hlp⟩ :=
      find_fit_characterization h (asizeOf size) fuel L1 L2 hL1 hL2
    simp only [mm_malloc] at hm
    rw [if_neg hs, hff] at hm
    cases r with
    | some bp =>
      have hres : res = (some bp, place h' bp (asizeOf size)) := by
        injection hm with hm2
        exact hm2.symm
      subst hres
      constructor
      · intro hc
        cases hc
      · rintro (hc | ⟨hall, _⟩)
        · exact absurd hc hs
        · have hmember : bp ∈ L1 ++ L2 := List.mem_of_find?_eq_some hr.symm
          have hfit : fitsB h.mem (asizeOf size) bp = true := List.find?_some hr.symm
          rw [hall bp hmember] at hfit
          cases hfit
    | none =>
      dsimp only at hm
      rcases hE : extend_heap h' (extendsizeOf (asizeOf size) / WSIZE) with _ | ⟨cbp, ch⟩
      · rw [hE] at hm
        have hres : res = (none, h') := by
          injection hm with hm2
          exact hm2.symm
        subst hres
        have hcond := (extend_heap_none_iff _ _).mp hE
        rw [hbrk, hlim] at hcond
        simp only [growthRequest]
        constructor
        · intro _
          exact Or.inr ⟨hiff.mp rfl, hcond⟩
        · intro _
          trivial
      · rw [hE] at hm
        have hres : res = (some cbp, place ch cbp (asizeOf size)) := by
          injection hm with hm2
          exact hm2.symm
        subst hres
        have hnonone : ¬ (h'.limit < h'.brk +
            (if extendsizeOf (asizeOf size) / WSIZE % 2 = 1 then
              (extendsizeOf (asizeOf size) / WSIZE + 1) * WSIZE
              else extendsizeOf (asizeOf size) / WSIZE * WSIZE)) := by
          intro hcond
          rw [← extend_heap_none_iff] at hcond
          rw [hE] at hcond
          cases hcond
        rw [hbrk, hlim] at hnonone
        simp only [growthRequest]
        constructor
        · intro hc
          cases hc
        · rintro (hc | ⟨_, hcond⟩)
          · exact absurd hc hs
          · exact absurd hcond hnonone

/-- C8 witness: request 100 on the initialized heap; block 16 fits, so
the result is non-null and both sides of the characterization are
false. -/
theorem C8_witness :
    ((mm_malloc heap0 100 20).get!).1 = none ↔ 100 = 0 ∨
      ((∀ b ∈ [8, 16] ++ [], fitsB heap0.mem (asizeOf 100) b = false) ∧
        heap0.limit < heap0.brk + growthRequest 100) :=
  C8_malloc_null_iff heap0 100 20 [8, 16] [] ((mm_malloc heap0 100 20).get!) rfl (by decide) (by decide)

/-! ### Claim C9 — `mm_realloc` allocates, copies, frees -/

/-- C9: whenever the internal `mm_malloc` terminates (fuel suffices),
`mm_realloc(p, n)` is fatal (process terminates, the original block is
not preserved) exactly when that allocation returned null; otherwise
it returns the fresh block's address after copying
`min(n, old encoded block size)` bytes from `p` and freeing `p`. -/
theorem C9_realloc_alloc_copy_free (h : Heap) (ptr size fuel : Nat)
    (res : Option Nat × Heap) (hm : mm_malloc h size fuel = some res) :
    mm_realloc h ptr size fuel =
      some (res.1.elim ReallocResult.fatal
        (fun newp => ReallocResult.ok newp (reallocCopyFree res.2 newp ptr size))) := by
  obtain ⟨r, h1⟩ := res
  cases r with
  | none =>
    unfold mm_realloc
    rw [hm]
    rfl
  | some newp =>
    unfold mm_realloc
    rw [hm]
    have hmin : (if size < GET_SIZE h1.mem (HDRP ptr) then size
        else GET_SIZE h1.mem (HDRP ptr)) = min size (GET_SIZE h1.mem (HDRP ptr)) := by
      split <;> omega
    simp only [reallocCopyFree, hmin, Option.elim]

/-- C9 witness: reallocating the allocated block 16 of `heap1` to 200
bytes, with the malloc hypothesis discharged by evaluation. -/
theorem C9_witness :
    mm_realloc heap1 16 200 30 =
      some (((mm_malloc heap1 200 30).get!).1.elim ReallocResult.fatal
        (fun newp => ReallocResult.ok newp
          (reallocCopyFree ((mm_malloc heap1 200 30).get!).2 newp 16 200))) :=
  C9_realloc_alloc_copy_free heap1 16 200 30 ((mm_malloc heap1 200 30).get!) rfl

/-! ### Claim C10 — `mm_realloc(p, 0)` -/

/-- C10: for every heap, pointer and fuel, `mm_realloc(p, 0)` hits the
fatal abort path: the internal `mm_malloc` returns the null result for
size 0, so `mm_realloc` terminates the process (`exit(1)`), never
freeing `p` and never returning. -/
theorem C10_realloc_zero_is_fatal (h : Heap) (ptr fuel : Nat) :
    mm_realloc h ptr 0 fuel = some ReallocResult.fatal := by
  unfold mm_realloc mm_malloc
  simp

/-! ### Claim C4 — the coalescing invariant -/

theorem chain_le (m : Mem) : ∀ bs a e, chain m a bs e → a ≤ e := by
  intro bs
  induction bs with
  | nil => intro a e h; exact le_of_eq h
  | cons x bs ih =>
    obtain ⟨s, al⟩ := x
    intro a e h
    have := ih (a + s) e h.2.2.2.2
    omega

theorem chain_dvd (m : Mem) : ∀ bs a e, 8 ∣ a → chain m a bs e → 8 ∣ e := by
  intro bs
  induction bs with
  | nil => intro a e ha h; rw [← h]; exact ha
  | cons x bs ih =>
    obtain ⟨s, al⟩ := x
    intro a e ha ⟨h1, h2, h3, h4, h5⟩
    exact ih (a + s) e (by omega) h5

theorem chain_append (m : Mem) :
    ∀ xs ys a e, chain m a (xs ++ ys) e ↔ ∃ mid, chain m a xs mid ∧ chain m mid ys e := by
  intro xs
  induction xs with
  | nil =>
    intro ys a e
    constructor
    · intro h; exact ⟨a, rfl, h⟩
    · rintro ⟨mid, hmid, h⟩
      have : a = mid := hmid
      rw [this]; exact h
  | cons x xs ih =>
    obtain ⟨s, al⟩ := x
    intro ys a e
    constructor
    · rintro ⟨h1, h2, h3, h4, h5⟩
      obtain ⟨mid, hx, hy⟩ := (ih ys (a + s) e).mp h5
      exact ⟨mid, ⟨h1, h2, h3, h4, hx⟩, hy⟩
    · rintro ⟨mid, ⟨h1, h2, h3, h4, hx⟩, hy⟩
      exact ⟨h1, h2, h3, h4, (ih ys (a + s) e).mpr ⟨mid, hx, hy⟩⟩

/-- Rewriting memory only outside the band `[a-4, e-8]` of a chain's
boundary tags preserves the chain. -/
theorem chain_frame (m m' : Mem) :
    ∀ bs a e, chain m a bs e →
      (∀ q, a ≤ q + 4 → q + 8 ≤ e → GET m' q = GET m q) →
      chain m' a bs e := by
  intro bs
  induction bs with
  | nil => intro a e h _; exact h
  | cons x bs ih
    =>
    obtain ⟨s, al⟩ := x
    intro a e ⟨h1, h2, h3, h4, h5⟩ heq
    have hle := chain_le m bs (a + s) e h5
    refine ⟨h1, h2, ?_, ?_, ?_⟩
    · rw [heq (a - 4) (by omega) (by omega)]
      exact h3
    · rw [heq (a + s - 8) (by omega) (by omega)]
      exact h4
    · exact ih (a + s) e h5 (fun q hq1 hq2 => heq q (by omega) hq2)

theorem chain_GET_lt (m : Mem) : ∀ bs a e s al, chain m a ((s, al) :: bs) e →
    s < 4294967296 := by
  intro bs a e s al h
  have := GET_lt m (a - 4)
  have h3 := h.2.2.1
  split at h3 <;> omega

theorem starts_lift (m : Mem) : ∀ pre a pos bs2, chain m a pre pos →
    ∀ q, q ∈ starts pos bs2 → q ∈ starts a (pre ++ bs2) := by
  intro pre
  induction pre with
  | nil =>
    intro a pos bs2 hch q hq
    have : a = pos := hch
    subst this
    exact hq
  | cons x pre ih =>
    obtain ⟨s, al⟩ := x
    intro a pos bs2 ⟨h1, h2, h3, h4, h5⟩ q hq
    exact List.mem_cons_of_mem a (ih (a + s) pos bs2 h5 q hq)

theorem chain_starts_le (m : Mem) : ∀ bs a e pos, chain m a bs e →
    pos ∈ starts a bs → pos + 16 ≤ e := by
  intro bs
  induction bs with
  | nil => intro a e pos _ hq; cases hq
  | cons x bs ih =>
    obtain ⟨s, al⟩ := x
    intro a e pos ⟨h1, h2, h3, h4, h5⟩ hq
    have hle := chain_le m bs (a + s) e h5
    rcases List.mem_cons.mp hq with rfl | hq2
    · omega
    · have := ih (a + s) e pos h5 hq2
      omega

theorem chain_pos_decomp (m : Mem) : ∀ bs a e pos, chain m a bs e →
    pos ∈ starts a bs →
    ∃ pre s al suf, bs = pre ++ (s, al) :: suf ∧
      chain m a pre pos ∧ chain m pos ((s, al) :: suf) e := by
  intro bs
  induction bs with
  | nil => intro a e pos _ hq; cases hq
  | cons x bs ih =>
    obtain ⟨s, al⟩ := x
    intro a e pos hch hq
    rcases List.mem_cons.mp hq with rfl | hq2
    · exact ⟨[], s, al, bs, rfl, rfl, hch⟩
    · obtain ⟨h1, h2, h3, h4, h5⟩ := hch
      obtain ⟨pre, s', al', suf, hbs, hcpre, hcsuf⟩ := ih (a + s) e pos h5 hq2
      exact ⟨(s, al) :: pre, s', al', suf, by rw [hbs]; rfl, ⟨h1, h2, h3, h4, hcpre⟩, hcsuf⟩

theorem blockAt_decomp (m : Mem) : ∀ bs a e bp s al, chain m a bs e →
    blockAt a bs bp = some (s, al) →
    ∃ pre suf, bs = pre ++ (s, al) :: suf ∧
      chain m a pre bp ∧ chain m bp ((s, al) :: suf) e := by
  intro bs
  induction bs with
  | nil => intro a e bp s al _ hb; cases hb
  | cons x bs ih =>
    obtain ⟨s0, al0⟩ := x
    intro a e bp s al hch hb
    unfold blockAt at hb
    by_cases hbp : bp = a
    · rw [if_pos hbp] at hb
      injection hb with hb2
      injection hb2 with hs hal
      subst hbp; subst hs; subst hal
      exact ⟨[], bs, rfl, rfl, hch⟩
    · rw [if_neg hbp] at hb
      obtain ⟨h1, h2, h3, h4, h5⟩ := hch
      obtain ⟨pre, suf, hbs, hcpre, hcsuf⟩ := ih (a + s0) e bp s al h5 hb
      exact ⟨(s0, al0) :: pre, suf, by rw [hbs]; rfl, ⟨h1, h2, h3, h4, hcpre⟩, hcsuf⟩

/-- Step invariant for the forward scan: from a legal position, a
successful run returns either a fitting free block start (with the
cursor on it) or null with the cursor at the epilogue. -/
theorem loop1_inv (m : Mem) (bs : List (Nat × Bool)) (brk asize : Nat)
    (hpro : GET m 4 = 9) (hch : chain m 16 bs brk) (hep : GET m (brk - 4) = 1)
    (hbrk : 16 ≤ brk) :
    ∀ fuel pos res nf, validPos bs brk pos →
      find_fit_loop1 m asize fuel pos = some (res, nf) →
      (∀ bp, res = some bp → nf = bp ∧ ∃ pre s suf, bs = pre ++ (s, false) :: suf ∧
        chain m 16 pre bp ∧ chain m bp ((s, false) :: suf) brk ∧ asize ≤ s) ∧
      (res = none → nf = brk) := by
  intro fuel
  induction fuel with
  | zero => intro pos res nf _ hrun; cases hrun
  | succ fuel ih =>
    intro pos res nf hv hrun
    unfold find_fit_loop1 at hrun
    rcases hv with rfl | heq | hmem
    · -- pos = 8 : the prologue, allocated, size 8
      have hsz : GET_SIZE m (HDRP 8) = 8 := by
        show GET m 4 - GET m 4 % 8 = 8
        omega
      have hal : GET_ALLOC m (HDRP 8) = 1 := by
        show GET m 4 % 2 = 1
        omega
      rw [if_pos (by omega)] at hrun
      rw [if_neg (by omega)] at hrun
      have hnext : NEXT_BLKP m 8 = 16 := by
        show 8 + (GET m 4 - GET m 4 % 8) = 16
        omega
      rw [hnext] at hrun
      refine ih 16 res nf ?_ hrun
      cases bs with
      | nil => right; left; exact hch
      | cons x bs2 =>
        obtain ⟨s, al⟩ := x
        right; right
        exact List.mem_cons_self 16 _
    · -- pos = brk : the epilogue, size 0
      have hsz : GET_SIZE m (HDRP pos) = 0 := by
        rw [heq]
        show GET m (brk - 4) - GET m (brk - 4) % 8 = 0
        omega
      rw [if_neg (by omega)] at hrun
      injection hrun with hrun2
      injection hrun2 with hres hnf
      subst hres; subst hnf
      exact ⟨fun bp hbp => Option.noConfusion hbp, fun _ => heq⟩
    · -- pos is a block start
      obtain ⟨pre, s, al, suf, hbs, hcpre, hcsuf⟩ := chain_pos_decomp m bs 16 brk pos hch hmem
      have h16 := hcsuf.1
      have h8s := hcsuf.2.1
      have hhdr := hcsuf.2.2.1
      have hftr := hcsuf.2.2.2.1
      have hrest := hcsuf.2.2.2.2
      have hslt : s < 4294967296 := chain_GET_lt m suf pos brk s al hcsuf
      have hfl : (if al then 1 else 0) ≤ 1 := by split <;> omega
      have hdec := decode_fields m (pos - 4) s (if al then 1 else 0) hhdr h8s hfl
      have hsz : GET_SIZE m (HDRP pos) = s := hdec.1
      have hal : GET_ALLOC m (HDRP pos) = (if al then 1 else 0) := hdec.2
      rw [if_pos (by omega)] at hrun
      by_cases hfit : GET_ALLOC m (HDRP pos) = 0 ∧ asize ≤ GET_SIZE m (HDRP pos)
      · rw [if_pos hfit] at hrun
        injection hrun with hrun2
        injection hrun2 with hres hnf
        subst hres; subst hnf
        refine ⟨fun bp hbp => ?_, fun hc => by cases hc⟩
        injection hbp with hbp2
        subst hbp2
        have half : al = false := by
          rcases hfit with ⟨hfa, _⟩
          rw [hal] at hfa
          cases al
          · rfl
          · simp at hfa
        subst half
        exact ⟨rfl, pre, s, suf, hbs, hcpre, hcsuf, by rw [hsz] at hfit; exact hfit.2⟩
      · rw [if_neg hfit] at hrun
        have hnext : NEXT_BLKP m pos = pos + s := by
          show pos + GET_SIZE m (HDRP pos) = pos + s
          rw [hsz]
        rw [hnext] at hrun
        refine ih (pos + s) res nf ?_ hrun
        cases suf with
        | nil => right; left; exact hrest
        | cons y suf2 =>
          obtain ⟨s2, al2⟩ := y
          right; right
          rw [hbs, show pre ++ (s, al) :: (s2, al2) :: suf2
            = (pre ++ [(s, al)]) ++ (s2, al2) :: suf2 from by simp]
          refine starts_lift m (pre ++ [(s, al)]) 16 (pos + s) ((s2, al2) :: suf2) ?_ _ ?_
          · rw [chain_append]
            exact ⟨pos, hcpre, ⟨h16, h8s, hhdr, hftr, rfl⟩⟩
          · exact List.mem_cons_self _ _
        
/-- Step invariant for the wrap-around scan: from a legal position the
run either finds a fitting free block (cursor on it) or exits at a
legal position. -/
theorem loop2_inv (m : Mem) (bs : List (Nat × Bool)) (brk asize bound : Nat)
    (hpro : GET m 4 = 9) (hch : chain m 16 bs brk) (hbrk : 16 ≤ brk)
    (hbound : bound ≤ brk) :
    ∀ fuel pos res nf, validPos bs brk pos →
      find_fit_loop2 m asize bound fuel pos = some (res, nf) →
      (∀ bp, res = some bp → nf = bp ∧ ∃ pre s suf, bs = pre ++ (s, false) :: suf ∧
        chain m 16 pre bp ∧ chain m bp ((s, false) :: suf) brk ∧ asize ≤ s) ∧
      (res = none → validPos bs brk nf) := by
  intro fuel
  induction fuel with
  | zero => intro pos res nf _ hrun; cases hrun
  | succ fuel ih =>
    intro pos res nf hv hrun
    unfold find_fit_loop2 at hrun
    by_cases hlt : pos < bound
    · rw [if_pos hlt] at hrun
      rcases hv with rfl | heq | hmem
      · -- pos = 8 : prologue, allocated
        have hal : GET_ALLOC m (HDRP 8) = 1 := by
          show GET m 4 % 2 = 1
          omega
        rw [if_neg (by omega)] at hrun
        have hnext : NEXT_BLKP m 8 = 16 := by
          show 8 + (GET m 4 - GET m 4 % 8) = 16
          omega
        rw [hnext] at hrun
        refine ih 16 res nf ?_ hrun
        cases bs with
        | nil => right; left; exact hch
        | cons x bs2 =>
          obtain ⟨s, al⟩ := x
          right; right
          exact List.mem_cons_self 16 _
      · -- pos = brk : impossible, the loop bound is at most brk
        omega
      · -- pos is a block start
        obtain ⟨pre, s, al, suf, hbs, hcpre, hcsuf⟩ := chain_pos_decomp m bs 16 brk pos hch hmem
        have h16 := hcsuf.1
        have h8s := hcsuf.2.1
        have hhdr := hcsuf.2.2.1
        have hftr := hcsuf.2.2.2.1
        have hrest := hcsuf.2.2.2.2
        have hfl : (if al then 1 else 0) ≤ 1 := by split <;> omega
        have hdec := decode_fields m (pos - 4) s (if al then 1 else 0) hhdr h8s hfl
        have hsz : GET_SIZE m (HDRP pos) = s := hdec.1
        have hal : GET_ALLOC m (HDRP pos) = (if al then 1 else 0) := hdec.2
        by_cases hfit : GET_ALLOC m (HDRP pos) = 0 ∧ asize ≤ GET_SIZE m (HDRP pos)
        · rw [if_pos hfit] at hrun
          injection hrun with hrun2
          injection hrun2 with hres hnf
          subst hres; subst hnf
          refine ⟨fun bp hbp => ?_, fun hc => Option.noConfusion hc⟩
          injection hbp with hbp2
          subst hbp2
          have half : al = false := by
            rcases hfit with ⟨hfa, _⟩
            rw [hal] at hfa
            cases al
            · rfl
            · simp at hfa
          subst half
          exact ⟨rfl, pre, s, suf, hbs, hcpre, hcsuf, by rw [hsz] at hfit; exact hfit.2⟩
        · rw [if_neg hfit] at hrun
          have hnext : NEXT_BLKP m pos = pos + s := by
            show pos + GET_SIZE m (HDRP pos) = pos + s
            rw [hsz]
          rw [hnext] at hrun
          refine ih (pos + s) res nf ?_ hrun
          cases suf with
          | nil => right; left; exact hrest
          | cons y suf2 =>
            obtain ⟨s2, al2⟩ := y
            right; right
            rw [hbs, show pre ++ (s, al) :: (s2, al2) :: suf2
              = (pre ++ [(s, al)]) ++ (s2, al2) :: suf2 from by simp]
            refine starts_lift m (pre ++ [(s, al)]) 16 (pos + s) ((s2, al2) :: suf2) ?_ _ ?_
            · rw [chain_append]
              exact ⟨pos, hcpre, ⟨h16, h8s, hhdr, hftr, rfl⟩⟩
            · exact List.mem_cons_self _ _
    · rw [if_neg hlt] at hrun
      injection hrun with hrun2
      injection hrun2 with hres hnf
      subst hres; subst hnf
      exact ⟨fun bp hbp => Option.noConfusion hbp, fun _ => hv⟩

theorem start_of_decomp (m : Mem) (bs pre suf : List (Nat × Bool)) (s : Nat) (al : Bool)
    (bp : Nat) (hbs : bs = pre ++ (s, al) :: suf) (hcpre : chain m 16 pre bp) :
    bp ∈ starts 16 bs := by
  rw [hbs]
  exact starts_lift m pre 16 bp ((s, al) :: suf) hcpre bp (List.mem_cons_self _ _)

theorem find_fit_inv (h : Heap) (bs : List (Nat × Bool)) (asize fuel : Nat)
    (hrep : heapRep h bs) (r : Option Nat) (h' : Heap)
    (hrun : find_fit h asize fuel = some (r, h')) :
    h'.mem = h.mem ∧ h'.brk = h.brk ∧ h'.limit = h.limit ∧ h'.heap_listp = h.heap_listp ∧
    heapRep h' bs ∧
    (∀ bp, r = some bp → h'.next_fit = bp ∧ ∃ pre s suf, bs = pre ++ (s, false) :: suf ∧
      chain h.mem 16 pre bp ∧ chain h.mem bp ((s, false) :: suf) h.brk ∧ asize ≤ s) := by
  obtain ⟨hlp, hp4, hp8, hch, hep, hbk, hbl, hll, hcur⟩ := hrep
  simp only [find_fit] at hrun
  rcases hl1 : find_fit_loop1 h.mem asize fuel h.next_fit with _ | ⟨r1, nf1⟩
  · rw [hl1] at hrun; cases hrun
  · rw [hl1] at hrun
    have hinv1 := loop1_inv h.mem bs h.brk asize hp4 hch hep hbk fuel h.next_fit r1 nf1 hcur hl1
    cases r1 with
    | some b =>
      injection hrun with hrun2
      injection hrun2 with hr hh
      subst hr
      subst hh
      obtain ⟨hnfb, pre, s, suf, hbs, hcpre, hcsuf, hfit⟩ := hinv1.1 b rfl
      refine ⟨rfl, rfl, rfl, rfl, ?_, ?_⟩
      · refine ⟨hlp, hp4, hp8, hch, hep, hbk, hbl, hll, Or.inr (Or.inr ?_)⟩
        show nf1 ∈ starts 16 bs
        rw [hnfb]
        exact start_of_decomp h.mem bs pre suf s false b hbs hcpre
      · intro bp hbp
        injection hbp with hbp2
        subst hbp2
        exact ⟨hnfb, pre, s, suf, hbs, hcpre, hcsuf, hfit⟩
    | none =>
      rw [hlp] at hrun
      rcases hl2 : find_fit_loop2 h.mem asize h.next_fit fuel 8 with _ | ⟨r2, nf2⟩
      · rw [hl2] at hrun; cases hrun
      · rw [hl2] at hrun
        have hbound : h.next_fit ≤ h.brk := by
          rcases hcur with heq | heq | hmem
          · omega
          · omega
          · have := chain_starts_le h.mem bs 16 h.brk h.next_fit hch hmem
            omega
        have hinv2 := loop2_inv h.mem bs h.brk asize h.next_fit hp4 hch hbk hbound fuel
          8 r2 nf2 (Or.inl rfl) hl2
        injection hrun with hrun2
        injection hrun2 with hr hh
        subst hr
        subst hh
        cases r2 with
        | some b =>
          obtain ⟨hnfb, pre, s, suf, hbs, hcpre, hcsuf, hfit⟩ := hinv2.1 b rfl
          refine ⟨rfl, rfl, rfl, hlp.symm, ?_, ?_⟩
          · refine ⟨rfl, hp4, hp8, hch, hep, hbk, hbl, hll, Or.inr (Or.inr ?_)⟩
            show nf2 ∈ starts 16 bs
            rw [hnfb]
            exact start_of_decomp h.mem bs pre suf s false b hbs hcpre
          · intro bp hbp
            injection hbp with hbp2
            subst hbp2
            exact ⟨hnfb, pre, s, suf, hbs, hcpre, hcsuf, hfit⟩
        | none =>
          refine ⟨rfl, rfl, rfl, hlp.symm, ?_, ?_⟩
          · exact ⟨rfl, hp4, hp8, hch, hep, hbk, hbl, hll, hinv2.2 rfl⟩
          · intro bp hbp
            cases hbp

theorem starts_ge : ∀ (bs : List (Nat × Bool)) (a q : Nat), q ∈ starts a bs → a ≤ q := by
  intro bs
  induction bs with
  | nil => intro a q hq; cases hq
  | cons x bs ih =>
    obtain ⟨s, al⟩ := x
    intro a q hq
    rcases List.mem_cons.mp hq with rfl | hq2
    · exact le_refl q
    · have := ih (a + s) q hq2
      omega

theorem mem_starts_append_iff (m : Mem) :
    ∀ (pre : List (Nat × Bool)) a mid rest q, chain m a pre mid →
      (q ∈ starts a (pre ++ rest) ↔ q ∈ starts a pre ∨ q ∈ starts mid rest) := by
  intro pre
  induction pre with
  | nil =>
    intro a mid rest q hch
    have : a = mid := hch
    subst this
    simp [starts]
  | cons x pre ih =>
    obtain ⟨s, al⟩ := x
    intro a mid rest q ⟨h1, h2, h3, h4, h5⟩
    have := ih (a + s) mid rest q h5
    constructor
    · intro hq
      rcases List.mem_cons.mp hq with rfl | hq2
      · exact Or.inl (List.mem_cons_self _ _)
      · rcases this.mp hq2 with hl | hr
        · exact Or.inl (List.mem_cons_of_mem _ hl)
        · exact Or.inr hr
    · intro hq
      rcases hq with hl | hr
      · rcases List.mem_cons.mp hl with rfl | hl2
        · exact List.mem_cons_self _ _
        · exact List.mem_cons_of_mem _ (this.mpr (Or.inl hl2))
      · exact List.mem_cons_of_mem _ (this.mpr (Or.inr hr))

set_option maxHeartbeats 1000000

/-- Preservation of the heap shape and the no-adjacent-free invariant
by `place` on a free block fitting the request. -/
theorem place_inv (h : Heap) (bs pre suf : List (Nat × Bool)) (bp s asize : Nat)
    (hrep : heapRep h bs) (hadj : noAdjFree bs)
    (hbs : bs = pre ++ (s, false) :: suf)
    (hcpre : chain h.mem 16 pre bp)
    (hcsuf : chain h.mem bp ((s, false) :: suf) h.brk)
    (h16a : 16 ≤ asize) (h8a : 8 ∣ asize) (has : asize ≤ s) :
    ∃ bs', heapRep (place h bp asize) bs' ∧ noAdjFree bs' := by
  obtain ⟨hlp, hp4, hp8, hch, hep, hbk, hbl, hll, hcur⟩ := hrep
  have hs16 : 16 ≤ s := hcsuf.1
  have h8s : 8 ∣ s := hcsuf.2.1
  have hhdr0 : GET h.mem (bp - 4) = s + 0 := by
    have := hcsuf.2.2.1
    simpa using this
  have hcsufT : chain h.mem (bp + s) suf h.brk := hcsuf.2.2.2.2
  have hdecb := decode_fields h.mem (bp - 4) s 0 hhdr0 h8s (by omega)
  have hGS : GET_SIZE h.mem (HDRP bp) = s := hdecb.1
  have hbp16 : 16 ≤ bp := by
    have := chain_le h.mem pre 16 bp hcpre
    omega
  have h8bp : 8 ∣ bp := chain_dvd h.mem pre 16 bp (by omega) hcpre
  have hsufle : bp + s ≤ h.brk := chain_le h.mem suf (bp + s) h.brk hcsufT
  have hslt : s < 4294967296 := chain_GET_lt h.mem suf bp h.brk s false hcsuf
  -- the no-adjacent-free decomposition
  rw [hbs] at hadj
  rw [noAdjFree, List.chain'_append] at hadj
  obtain ⟨hpreC, hmidC, hglue⟩ := hadj
  rw [List.chain'_cons'] at hmidC
  obtain ⟨hheadR, hsufC⟩ := hmidC
  -- the cursor is never strictly inside the block being carved
  have hcurd : h.next_fit = 8 ∨ h.next_fit = h.brk ∨ h.next_fit ∈ starts 16 pre ∨
      h.next_fit = bp ∨ h.next_fit ∈ starts (bp + s) suf := by
    rcases hcur with hc | hc | hc
    · exact Or.inl hc
    · exact Or.inr (Or.inl hc)
    · rw [hbs] at hc
      rcases (mem_starts_append_iff h.mem pre 16 bp _ _ hcpre).mp hc with hc2 | hc2
      · exact Or.inr (Or.inr (Or.inl hc2))
      · rcases List.mem_cons.mp hc2 with hc3 | hc3
        · exact Or.inr (Or.inr (Or.inr (Or.inl hc3)))
        · exact Or.inr (Or.inr (Or.inr (Or.inr hc3)))
  have hprelt : ∀ q ∈ starts 16 pre, q + 16 ≤ bp :=
    fun q hq => chain_starts_le h.mem pre 16 bp q hcpre hq
  have hsufge : ∀ q ∈ starts (bp + s) suf, bp + s ≤ q :=
    fun q hq => starts_ge suf (bp + s) q hq
  by_cases hsp : 16 ≤ s - asize
  · -- split
    rw [place_split_eq h bp asize s hGS h8bp (by omega) h8a h8s h16a has hslt hsp]
    refine ⟨pre ++ (asize, true) :: (s - asize, false) :: suf, ?_, ?_⟩
    · have hfr : ∀ q, q + 8 ≤ bp →
          GET (PUT (PUT (PUT (PUT h.mem (bp - 4) (PACK asize 1))
            (bp + asize - 8) (PACK asize 1)) (bp + asize - 4) (PACK (s - asize) 0))
            (bp + s - 8) (PACK (s - asize) 0)) q = GET h.mem q := by
        intro q hq
        rw [GET_PUT_out _ _ _ _ (by omega), GET_PUT_out _ _ _ _ (by omega),
          GET_PUT_out _ _ _ _ (by omega), GET_PUT_out _ _ _ _ (by omega)]
      have hfrhi : ∀ q, bp + s ≤ q + 4 →
          GET (PUT (PUT (PUT (PUT h.mem (bp - 4) (PACK asize 1))
            (bp + asize - 8) (PACK asize 1)) (bp + asize - 4) (PACK (s - asize) 0))
            (bp + s - 8) (PACK (s - asize) 0)) q = GET h.mem q := by
        intro q hq
        rw [GET_PUT_out _ _ _ _ (by omega), GET_PUT_out _ _ _ _ (by omega),
          GET_PUT_out _ _ _ _ (by omega), GET_PUT_out _ _ _ _ (by omega)]
      have g4 : GET (PUT (PUT (PUT (PUT h.mem (bp - 4) (PACK asize 1)) (bp + asize - 8)
          (PACK asize 1)) (bp + asize - 4) (PACK (s - asize) 0)) (bp + s - 8)
          (PACK (s - asize) 0)) (bp + s - 8) = (s - asize) + 0 := by
        rw [GET_PUT_eq, PACK_zero, Nat.mod_eq_of_lt (by omega)]
        omega
      have g3 : GET (PUT (PUT (PUT (PUT h.mem (bp - 4) (PACK asize 1)) (bp + asize - 8)
          (PACK asize 1)) (bp + asize - 4) (PACK (s - asize) 0)) (bp + s - 8)
          (PACK (s - asize) 0)) (bp + asize - 4) = (s - asize) + 0 := by
        rw [GET_PUT_ne _ _ _ _ (by omega) (by omega) (by omega), GET_PUT_eq, PACK_zero,
          Nat.mod_eq_of_lt (by omega)]
        omega
      have g2 : GET (PUT (PUT (PUT (PUT h.mem (bp - 4) (PACK asize 1)) (bp + asize - 8)
          (PACK asize 1)) (bp + asize - 4) (PACK (s - asize) 0)) (bp + s - 8)
          (PACK (s - asize) 0)) (bp + asize - 8) = asize + 1 := by
        rw [GET_PUT_ne _ _ _ _ (by omega) (by omega) (by omega),
          GET_PUT_ne _ _ _ _ (by omega) (by omega) (by omega),
          GET_PUT_eq, PACK_one _ h8a, Nat.mod_eq_of_lt (by omega)]
      have g1 : GET (PUT (PUT (PUT (PUT h.mem (bp - 4) (PACK asize 1)) (bp + asize - 8)
          (PACK asize 1)) (bp + asize - 4) (PACK (s - asize) 0)) (bp + s - 8)
          (PACK (s - asize) 0)) (bp - 4) = asize + 1 := by
        rw [GET_PUT_ne _ _ _ _ (by omega) (by omega) (by omega),
          GET_PUT_ne _ _ _ _ (by omega) (by omega) (by omega),
          GET_PUT_ne _ _ _ _ (by omega) (by omega) (by omega),
          GET_PUT_eq, PACK_one _ h8a, Nat.mod_eq_of_lt (by omega)]
      have hpre' : chain (PUT (PUT (PUT (PUT h.mem (bp - 4) (PACK asize 1))
          (bp + asize - 8) (PACK asize 1)) (bp + asize - 4) (PACK (s - asize) 0))
          (bp + s - 8) (PACK (s - asize) 0)) 16 pre bp :=
        chain_frame h.mem _ pre 16 bp hcpre (fun q _ hq2 => hfr q hq2)
      have hsuf' : chain (PUT (PUT (PUT (PUT h.mem (bp - 4) (PACK asize 1))
          (bp + asize - 8) (PACK asize 1)) (bp + asize - 4) (PACK (s - asize) 0))
          (bp + s - 8) (PACK (s - asize) 0)) (bp + s) suf h.brk :=
        chain_frame h.mem _ suf (bp + s) h.brk hcsufT (fun q hq1 _ => hfrhi q hq1)
      refine ⟨hlp, ?_, ?_, ?_, ?_, hbk, hbl, hll, ?_⟩
      · rw [hfr 4 (by omega)]
        exact hp4
      · rw [hfr 8 (by omega)]
        exact hp8
      · -- the chain for the new list
        rw [chain_append]
        refine ⟨bp, hpre', ?_⟩
        refine ⟨h16a, h8a, by simpa using g1, by simpa using g2, ?_⟩
        refine ⟨by omega, by omega, by simpa using g3, ?_, ?_⟩
        · rw [show bp + asize + (s - asize) - 8 = bp + s - 8 from by omega]
          simpa using g4
        · rw [show bp + asize + (s - asize) = bp + s from by omega]
          exact hsuf'
      · rw [hfrhi (h.brk - 4) (by omega)]
        exact hep
      · -- cursor
        have hne : h.next_fit ≠ bp + asize := by
          rcases hcurd with hc | hc | hc | hc | hc
          · omega
          · omega
          · have := hprelt _ hc
            omega
          · omega
          · have := hsufge _ hc
            omega
        rw [if_neg hne]
        show validPos _ h.brk h.next_fit
        rcases hcurd with hc | hc | hc | hc | hc
        · exact Or.inl hc
        · exact Or.inr (Or.inl hc)
        · refine Or.inr (Or.inr ?_)
          rw [mem_starts_append_iff _ pre 16 bp _ _ hpre']
          exact Or.inl hc
        · refine Or.inr (Or.inr ?_)
          rw [mem_starts_append_iff _ pre 16 bp _ _ hpre']
          right
          rw [hc]
          exact List.mem_cons_self _ _
        · refine Or.inr (Or.inr ?_)
          rw [mem_starts_append_iff _ pre 16 bp _ _ hpre']
          right
          simp only [starts, List.mem_cons]
          right; right
          rw [show bp + asize + (s - asize) = bp + s from by omega]
          exact hc
    · -- no adjacent free blocks in the new list
      rw [noAdjFree, List.chain'_append]
      refine ⟨hpreC, ?_, ?_⟩
      · rw [List.chain'_cons']
        refine ⟨fun y _ => Or.inl rfl, ?_⟩
        rw [List.chain'_cons']
        refine ⟨fun y hy => Or.inr ?_, hsufC⟩
        have := hheadR y hy
        rcases this with hl | hr
        · cases hl
        · exact hr
      · intro x hx y hy
        simp only [List.head?] at hy
        injection hy with hy2
        subst hy2
        exact Or.inr rfl
  · -- consume
    rw [place_consume_eq h bp asize s hGS h8bp (by omega) h8s hs16 has hslt (by omega)]
    refine ⟨pre ++ (s, true) :: suf, ?_, ?_⟩
    · have hfr : ∀ q, q + 8 ≤ bp →
          GET (PUT (PUT h.mem (bp - 4) (PACK s 1)) (bp + s - 8) (PACK s 1)) q
            = GET h.mem q := by
        intro q hq
        rw [GET_PUT_out _ _ _ _ (by omega), GET_PUT_out _ _ _ _ (by omega)]
      have hfrhi : ∀ q, bp + s ≤ q + 4 →
          GET (PUT (PUT h.mem (bp - 4) (PACK s 1)) (bp + s - 8) (PACK s 1)) q
            = GET h.mem q := by
        intro q hq
        rw [GET_PUT_out _ _ _ _ (by omega), GET_PUT_out _ _ _ _ (by omega)]
      have g2 : GET (PUT (PUT h.mem (bp - 4) (PACK s 1)) (bp + s - 8) (PACK s 1))
          (bp + s - 8) = s + 1 := by
        rw [GET_PUT_eq, PACK_one _ h8s, Nat.mod_eq_of_lt (by omega)]
      have g1 : GET (PUT (PUT h.mem (bp - 4) (PACK s 1)) (bp + s - 8) (PACK s 1))
          (bp - 4) = s + 1 := by
        rw [GET_PUT_ne _ _ _ _ (by omega) (by omega) (by omega),
          GET_PUT_eq, PACK_one _ h8s, Nat.mod_eq_of_lt (by omega)]
      have hpre' : chain (PUT (PUT h.mem (bp - 4) (PACK s 1)) (bp + s - 8) (PACK s 1))
          16 pre bp :=
        chain_frame h.mem _ pre 16 bp hcpre (fun q _ hq2 => hfr q hq2)
      have hsuf' : chain (PUT (PUT h.mem (bp - 4) (PACK s 1)) (bp + s - 8) (PACK s 1))
          (bp + s) suf h.brk :=
        chain_frame h.mem _ suf (bp + s) h.brk hcsufT (fun q hq1 _ => hfrhi q hq1)
      refine ⟨hlp, ?_, ?_, ?_, ?_, hbk, hbl, hll, ?_⟩
      · rw [hfr 4 (by omega)]
        exact hp4
      · rw [hfr 8 (by omega)]
        exact hp8
      · rw [chain_append]
        exact ⟨bp, hpre', ⟨hs16, h8s, by simpa using g1, by simpa using g2, hsuf'⟩⟩
      · rw [hfrhi (h.brk - 4) (by omega)]
        exact hep
      · -- cursor: advanced past the consumed block when it sat on it
        by_cases hcbp : h.next_fit = bp
        · rw [if_pos hcbp]
          show validPos _ h.brk (bp + s)
          cases suf with
          | nil =>
            right; left
            exact hcsufT
          | cons y suf2 =>
            right; right
            rw [mem_starts_append_iff _ pre 16 bp _ _ hpre']
            right
            obtain ⟨s2, al2⟩ := y
            exact List.mem_cons_of_mem _ (List.mem_cons_self _ _)
        · rw [if_neg hcbp]
          show validPos _ h.brk h.next_fit
          rcases hcurd with hc | hc | hc | hc | hc
          · exact Or.inl hc
          · exact Or.inr (Or.inl hc)
          · refine Or.inr (Or.inr ?_)
            rw [mem_starts_append_iff _ pre 16 bp _ _ hpre']
            exact Or.inl hc
          · exact absurd hc hcbp
          · refine Or.inr (Or.inr ?_)
            rw [mem_starts_append_iff _ pre 16 bp _ _ hpre']
            right
            simp only [starts, List.mem_cons]
            right
            exact hc
    · rw [noAdjFree, List.chain'_append]
      refine ⟨hpreC, ?_, ?_⟩
      · rw [List.chain'_cons']
        exact ⟨fun y _ => Or.inl rfl, hsufC⟩
      · intro x hx y hy
        simp only [List.head?] at hy
        injection hy with hy2
        subst hy2
        exact Or.inr rfl

/-- Right-decomposition of the prefix chain: the physical predecessor
of `bp` is either the prologue or the last block of `pre`. -/
theorem prev_block_facts (h : Heap) (pre : List (Nat × Bool)) (bp : Nat)
    (hp4 : GET h.mem 4 = 9) (hp8 : GET h.mem 8 = 9)
    (hcpre : chain h.mem 16 pre bp) :
    (pre = [] ∧ bp = 16 ∧ GET h.mem (bp - 8) = 8 + 1 ∧
      GET h.mem (bp - 8 - 4) = 8 + 1) ∨
    (∃ pre' ps pal, pre = pre' ++ [(ps, pal)] ∧
      chain h.mem 16 pre' (bp - ps) ∧ 16 ≤ ps ∧ 8 ∣ ps ∧ ps + 16 ≤ bp ∧
      GET h.mem (bp - 8) = ps + (if pal then 1 else 0) ∧
      GET h.mem (bp - ps - 4) = ps + (if pal then 1 else 0)) := by
  rcases List.eq_nil_or_concat pre with rfl | ⟨pre', x, rfl⟩
  · have : (16 : Nat) = bp := hcpre
    subst this
    exact Or.inl ⟨rfl, rfl, hp8, hp4⟩
  · obtain ⟨ps, pal⟩ := x
    rw [List.concat_eq_append] at hcpre
    obtain ⟨mid, hc1, hc2⟩ := (chain_append h.mem pre' [(ps, pal)] 16 bp).mp hcpre
    obtain ⟨hps16, h8ps, hhd, hft, hend⟩ := hc2
    have hmid : mid + ps = bp := hend
    have hmid16 : 16 ≤ mid := chain_le h.mem pre' 16 mid hc1
    right
    refine ⟨pre', ps, pal, List.concat_eq_append _ _, ?_, hps16, h8ps, by omega, ?_, ?_⟩
    · rw [show bp - ps = mid from by omega]
      exact hc1
    · rw [show bp - 8 = mid + ps - 8 from by omega]
      exact hft
    · rw [show bp - ps - 4 = mid - 4 from by omega]
      exact hhd

set_option maxHeartbeats 2000000

set_option maxHeartbeats 2000000

/-- Preservation by `coalesce` applied to the free block `(s, false)`
between `pre` and `suf`: the result is again a represented heap whose
block list satisfies the coalescing invariant, and the returned
address heads a free block at least as large as the original. -/
theorem coalesce_inv (h : Heap) (pre suf : List (Nat × Bool)) (bp s : Nat)
    (hrep : heapRep h (pre ++ (s, false) :: suf))
    (hcpre : chain h.mem 16 pre bp)
    (hcsuf : chain h.mem bp ((s, false) :: suf) h.brk)
    (hpreC : noAdjFree pre) (hsufC : noAdjFree suf) :
    ∃ bp2 h2 pre2 suf2 ms,
      coalesce h bp = (bp2, h2) ∧
      heapRep h2 (pre2 ++ (ms, false) :: suf2) ∧
      noAdjFree (pre2 ++ (ms, false) :: suf2) ∧
      chain h2.mem 16 pre2 bp2 ∧
      chain h2.mem bp2 ((ms, false) :: suf2) h2.brk ∧
      s ≤ ms ∧ h2.brk = h.brk ∧ h2.limit = h.limit ∧ h2.heap_listp = h.heap_listp := by
  obtain ⟨hlp, hp4, hp8, hch, hep, hbk, hbl, hll, hcur⟩ := hrep
  have hs16 : 16 ≤ s := hcsuf.1
  have h8s : 8 ∣ s := hcsuf.2.1
  have hhdr0 : GET h.mem (bp - 4) = s + 0 := by
    have := hcsuf.2.2.1
    simpa using this
  have hftr0 : GET h.mem (bp + s - 8) = s + 0 := by
    have := hcsuf.2.2.2.1
    simpa using this
  have hcsufT : chain h.mem (bp + s) suf h.brk := hcsuf.2.2.2.2
  have hdecb := decode_fields h.mem (bp - 4) s 0 hhdr0 h8s (by omega)
  have hbsz : GET_SIZE h.mem (bp - 4) = s := hdecb.1
  have hbp16 : 16 ≤ bp := by
    have := chain_le h.mem pre 16 bp hcpre
    omega
  have h8bp : 8 ∣ bp := chain_dvd h.mem pre 16 bp (by omega) hcpre
  have hsufle : bp + s ≤ h.brk := chain_le h.mem suf (bp + s) h.brk hcsufT
  have hprelt : ∀ q ∈ starts 16 pre, q + 16 ≤ bp :=
    fun q hq => chain_starts_le h.mem pre 16 bp q hcpre hq
  have hsufge : ∀ q ∈ starts (bp + s) suf, bp + s ≤ q :=
    fun q hq => starts_ge suf (bp + s) q hq
  have hcurd : h.next_fit = 8 ∨ h.next_fit = h.brk ∨ h.next_fit ∈ starts 16 pre ∨
      h.next_fit = bp ∨ h.next_fit ∈ starts (bp + s) suf := by
    rcases hcur with hc | hc | hc
    · exact Or.inl hc
    · exact Or.inr (Or.inl hc)
    · rcases (mem_starts_append_iff h.mem pre 16 bp _ _ hcpre).mp hc with hc2 | hc2
      · exact Or.inr (Or.inr (Or.inl hc2))
      · rcases List.mem_cons.mp hc2 with hc3 | hc3
        · exact Or.inr (Or.inr (Or.inr (Or.inl hc3)))
        · exact Or.inr (Or.inr (Or.inr (Or.inr hc3)))
  have hPA : (∃ PS, 8 ∣ PS ∧ 8 ≤ PS ∧ PS + 8 ≤ bp ∧
      GET h.mem (bp - 8) = PS + 1 ∧ GET h.mem (bp - PS - 4) = PS + 1 ∧
      (∀ x ∈ pre.getLast?, x.2 = true)) ∨
    (∃ pre' ps, pre = pre' ++ [(ps, false)] ∧ chain h.mem 16 pre' (bp - ps) ∧
      16 ≤ ps ∧ 8 ∣ ps ∧ ps + 16 ≤ bp ∧
      GET h.mem (bp - 8) = ps + 0 ∧ GET h.mem (bp - ps - 4) = ps + 0) := by
    rcases prev_block_facts h pre bp hp4 hp8 hcpre with
      ⟨hpnil, hbpe, hpf8, hph8⟩ | ⟨pre', ps, pal, hpre_eq, hcpre', hps16, h8ps, hpsbp, hpfp, hphp⟩
    · left
      refine ⟨8, by omega, by omega, by omega, hpf8, ?_, ?_⟩
      · rw [show bp - 8 - 4 = bp - 8 - 4 from rfl] at hph8
        exact hph8
      · rw [hpnil]
        intro x hx
        cases hx
    · cases pal with
      | false =>
        right
        exact ⟨pre', ps, hpre_eq, hcpre', hps16, h8ps, hpsbp,
          by simpa using hpfp, by simpa using hphp⟩
      | true =>
        left
        refine ⟨ps, h8ps, by omega, by omega, by simpa using hpfp, by simpa using hphp, ?_⟩
        rw [hpre_eq]
        intro x hx
        rw [List.getLast?_concat] at hx
        injection hx with hx2
        rw [← hx2]
  have hNA : (∃ NS, 8 ∣ NS ∧ GET h.mem (bp + s - 4) = NS + 1 ∧
      (∀ y ∈ suf.head?, y.2 = true)) ∨
    (∃ ns suf', suf = (ns, false) :: suf' ∧ 16 ≤ ns ∧ 8 ∣ ns ∧
      GET h.mem (bp + s - 4) = ns + 0 ∧ GET h.mem (bp + s + ns - 8) = ns + 0 ∧
      chain h.mem (bp + s + ns) suf' h.brk) := by
    cases suf with
    | nil =>
      have hbe : bp + s = h.brk := hcsufT
      left
      refine ⟨0, by omega, ?_, ?_⟩
      · rw [show bp + s - 4 = h.brk - 4 from by omega]
        simpa using hep
      · intro y hy
        cases hy
    | cons y suf' =>
      obtain ⟨ns, nal⟩ := y
      have hns16 : 16 ≤ ns := hcsufT.1
      have h8ns : 8 ∣ ns := hcsufT.2.1
      have hnh := hcsufT.2.2.1
      have hnf := hcsufT.2.2.2.1
      have hrest := hcsufT.2.2.2.2
      cases nal with
      | false =>
        right
        refine ⟨ns, suf', rfl, hns16, h8ns, by simpa using hnh, ?_, ?_⟩
        · rw [show bp + s + ns - 8 = bp + s + ns - 8 from rfl]
          simpa using hnf
        · exact hrest
      | true =>
        left
        refine ⟨ns, h8ns, by simpa using hnh, ?_⟩
        intro z hz
        injection hz with hz2
        rw [← hz2]
  rcases hPA with ⟨PS, h8PS, hPS8, hPSbp, hpf, hph, hglueL⟩ |
    ⟨pre', ps, hpre_eq, hcpre', hps16, h8ps, hpsbp, hpf, hph⟩ <;>
    rcases hNA with ⟨NS, h8NS, hnh, hglueR⟩ |
      ⟨ns, suf', hsuf_eq, hns16, h8ns, hnh, hnf2, hsuf'⟩
  · -- both neighbours allocated : no merge
    refine ⟨bp, h, pre, suf, s,
      coalesce_case1_eq h bp PS s NS hpf hph hbsz hnh h8bp h8PS h8NS hPS8 (by omega) hPSbp,
      ⟨hlp, hp4, hp8, hch, hep, hbk, hbl, hll, hcur⟩, ?_, hcpre, hcsuf, le_refl s,
      rfl, rfl, rfl⟩
    rw [noAdjFree, List.chain'_append]
    refine ⟨hpreC, ?_, ?_⟩
    · rw [List.chain'_cons']
      exact ⟨fun y hy => Or.inr (hglueR y hy), hsufC⟩
    · intro x hx y hy
      injection hy with hy2
      subst hy2
      exact Or.inl (hglueL x hx)
  · -- only the successor free : absorb it
    subst hsuf_eq
    have hble : bp + s + ns ≤ h.brk := by
      have := chain_le h.mem suf' (bp + s + ns) h.brk hsuf'
      omega
    have hlt2 : s + ns < 4294967296 := by omega
    have g1 : GET (PUT (PUT h.mem (bp - 4) (PACK (s + ns) 0)) (bp + s + ns - 8)
        (PACK (s + ns) 0)) (bp - 4) = (s + ns) + 0 := by
      rw [GET_PUT_ne _ _ _ _ (by omega) (by omega) (by omega), GET_PUT_eq, PACK_zero,
        Nat.mod_eq_of_lt (by omega)]
      omega
    have g2 : GET (PUT (PUT h.mem (bp - 4) (PACK (s + ns) 0)) (bp + s + ns - 8)
        (PACK (s + ns) 0)) (bp + s + ns - 8) = (s + ns) + 0 := by
      rw [GET_PUT_eq, PACK_zero, Nat.mod_eq_of_lt (by omega)]
      omega
    have hfr : ∀ q, q + 8 ≤ bp →
        GET (PUT (PUT h.mem (bp - 4) (PACK (s + ns) 0)) (bp + s + ns - 8)
          (PACK (s + ns) 0)) q = GET h.mem q := by
      intro q hq
      rw [GET_PUT_out _ _ _ _ (by omega), GET_PUT_out _ _ _ _ (by omega)]
    have hfrhi : ∀ q, bp + s + ns ≤ q + 4 →
        GET (PUT (PUT h.mem (bp - 4) (PACK (s + ns) 0)) (bp + s + ns - 8)
          (PACK (s + ns) 0)) q = GET h.mem q := by
      intro q hq
      rw [GET_PUT_out _ _ _ _ (by omega), GET_PUT_out _ _ _ _ (by omega)]
    have hpre2 : chain (PUT (PUT h.mem (bp - 4) (PACK (s + ns) 0)) (bp + s + ns - 8)
        (PACK (s + ns) 0)) 16 pre bp :=
      chain_frame h.mem _ pre 16 bp hcpre (fun q _ hq2 => hfr q hq2)
    have hsuf2 : chain (PUT (PUT h.mem (bp - 4) (PACK (s + ns) 0)) (bp + s + ns - 8)
        (PACK (s + ns) 0)) (bp + s + ns) suf' h.brk :=
      chain_frame h.mem _ suf' (bp + s + ns) h.brk hsuf' (fun q hq1 _ => hfrhi q hq1)
    have hcons : chain (PUT (PUT h.mem (bp - 4) (PACK (s + ns) 0)) (bp + s + ns - 8)
        (PACK (s + ns) 0)) bp ((s + ns, false) :: suf') h.brk := by
      refine ⟨by omega, by omega, by simpa using g1, ?_, ?_⟩
      · rw [show bp + (s + ns) - 8 = bp + s + ns - 8 from by omega]
        simpa using g2
      · rw [show bp + (s + ns) = bp + s + ns from by omega]
        exact hsuf2
    have hheadF : ∀ y ∈ suf'.head?, y.2 = true := by
      intro y hy
      rw [noAdjFree, List.chain'_cons'] at hsufC
      rcases hsufC.1 y hy with hl | hr
      · cases hl
      · exact hr
    refine ⟨bp, _, pre, suf', s + ns,
      coalesce_case2_eq h bp PS s ns hpf hph hbsz hnh h8bp h8PS h8s h8ns hPS8 (by omega)
        (by omega) hPSbp hlt2, ?_, ?_, hpre2, hcons, by omega, rfl, rfl, rfl⟩
    · refine ⟨hlp, ?_, ?_, ?_, ?_, hbk, hbl, hll, ?_⟩
      · rw [hfr 4 (by omega)]
        exact hp4
      · rw [hfr 8 (by omega)]
        exact hp8
      · rw [chain_append]
        exact ⟨bp, hpre2, hcons⟩
      · rw [hfrhi (h.brk - 4) (by omega)]
        exact hep
      · show validPos _ h.brk (if bp ≤ h.next_fit ∧ h.next_fit < bp + s + ns then bp
          else h.next_fit)
        by_cases hcond : bp ≤ h.next_fit ∧ h.next_fit < bp + s + ns
        · rw [if_pos hcond]
          refine Or.inr (Or.inr ?_)
          rw [mem_starts_append_iff _ pre 16 bp _ _ hpre2]
          exact Or.inr (List.mem_cons_self _ _)
        · rw [if_neg hcond]
          rcases hcurd with hc | hc | hc | hc | hc
          · exact Or.inl hc
          · exact Or.inr (Or.inl hc)
          · refine Or.inr (Or.inr ?_)
            rw [mem_starts_append_iff _ pre 16 bp _ _ hpre2]
            exact Or.inl hc
          · exact absurd ⟨by omega, by omega⟩ hcond
          · rcases List.mem_cons.mp hc with hc2 | hc2
            · exact absurd ⟨by omega, by omega⟩ hcond
            · have := starts_ge suf' (bp + s + ns) _ hc2
              refine Or.inr (Or.inr ?_)
              rw [mem_starts_append_iff _ pre 16 bp _ _ hpre2]
              right
              refine List.mem_cons_of_mem _ ?_
              rw [show bp + (s + ns) = bp + s + ns from by omega]
              exact hc2
    · rw [noAdjFree, List.chain'_append]
      refine ⟨hpreC, ?_, ?_⟩
      · rw [List.chain'_cons']
        refine ⟨fun y hy => Or.inr (hheadF y hy), ?_⟩
        rw [noAdjFree, List.chain'_cons'] at hsufC
        exact hsufC.2
      · intro x hx y hy
        injection hy with hy2
        subst hy2
        exact Or.inl (hglueL x hx)
  · -- only the predecessor free : absorb it
    subst hpre_eq
    have hlt3 : s + ps < 4294967296 := by omega
    have g1 : GET (PUT (PUT h.mem (bp + s - 8) (PACK (s + ps) 0)) (bp - ps - 4)
        (PACK (s + ps) 0)) (bp - ps - 4) = (s + ps) + 0 := by
      rw [GET_PUT_eq, PACK_zero, Nat.mod_eq_of_lt (by omega)]
      omega
    have g2 : GET (PUT (PUT h.mem (bp + s - 8) (PACK (s + ps) 0)) (bp - ps - 4)
        (PACK (s + ps) 0)) (bp + s - 8) = (s + ps) + 0 := by
      rw [GET_PUT_ne _ _ _ _ (by omega) (by omega) (by omega), GET_PUT_eq, PACK_zero,
        Nat.mod_eq_of_lt (by omega)]
      omega
    have hfr : ∀ q, q + 8 ≤ bp - ps →
        GET (PUT (PUT h.mem (bp + s - 8) (PACK (s + ps) 0)) (bp - ps - 4)
          (PACK (s + ps) 0)) q = GET h.mem q := by
      intro q hq
      rw [GET_PUT_out _ _ _ _ (by omega), GET_PUT_out _ _ _ _ (by omega)]
    have hfrhi : ∀ q, bp + s ≤ q + 4 →
        GET (PUT (PUT h.mem (bp + s - 8) (PACK (s + ps) 0)) (bp - ps - 4)
          (PACK (s + ps) 0)) q = GET h.mem q := by
      intro q hq
      rw [GET_PUT_out _ _ _ _ (by omega), GET_PUT_out _ _ _ _ (by omega)]
    have hpre2 : chain (PUT (PUT h.mem (bp + s - 8) (PACK (s + ps) 0)) (bp - ps - 4)
        (PACK (s + ps) 0)) 16 pre' (bp - ps) :=
      chain_frame h.mem _ pre' 16 (bp - ps) hcpre' (fun q _ hq2 => hfr q hq2)
    have hsuf2 : chain (PUT (PUT h.mem (bp + s - 8) (PACK (s + ps) 0)) (bp - ps - 4)
        (PACK (s + ps) 0)) (bp + s) suf h.brk :=
      chain_frame h.mem _ suf (bp + s) h.brk hcsufT (fun q hq1 _ => hfrhi q hq1)
    have hcons : chain (PUT (PUT h.mem (bp + s - 8) (PACK (s + ps) 0)) (bp - ps - 4)
        (PACK (s + ps) 0)) (bp - ps) ((s + ps, false) :: suf) h.brk := by
      refine ⟨by omega, by omega, by simpa using g1, ?_, ?_⟩
      · rw [show bp - ps + (s + ps) - 8 = bp + s - 8 from by omega]
        simpa using g2
      · rw [show bp - ps + (s + ps) = bp + s from by omega]
        exact hsuf2
    rw [noAdjFree, List.chain'_append] at hpreC
    obtain ⟨hpre'C, _, hglue⟩ := hpreC
    have hlastA : ∀ x ∈ pre'.getLast?, x.2 = true := by
      intro x hx
      rcases hglue x hx (ps, false) rfl with h1 | h2
      · exact h1
      · cases h2
    refine ⟨bp - ps, _, pre', suf, s + ps,
      coalesce_case3_eq h bp ps s NS hpf hph hbsz hnh h8bp h8ps h8s h8NS (by omega)
        (by omega) (by omega) hlt3, ?_, ?_, hpre2, hcons, by omega, rfl, rfl, rfl⟩
    · refine ⟨hlp, ?_, ?_, ?_, ?_, hbk, hbl, hll, ?_⟩
      · rw [hfr 4 (by omega)]
        exact hp4
      · rw [hfr 8 (by omega)]
        exact hp8
      · rw [chain_append]
        exact ⟨bp - ps, hpre2, hcons⟩
      · rw [hfrhi (h.brk - 4) (by omega)]
        exact hep
      · show validPos _ h.brk (if bp - ps ≤ h.next_fit ∧ h.next_fit < bp + s then bp - ps
          else h.next_fit)
        by_cases hcond : bp - ps ≤ h.next_fit ∧ h.next_fit < bp + s
        · rw [if_pos hcond]
          refine Or.inr (Or.inr ?_)
          rw [mem_starts_append_iff _ pre' 16 (bp - ps) _ _ hpre2]
          exact Or.inr (List.mem_cons_self _ _)
        · rw [if_neg hcond]
          rcases hcurd with hc | hc | hc | hc | hc
          · exact Or.inl hc
          · exact Or.inr (Or.inl hc)
          · rcases (mem_starts_append_iff h.mem pre' 16 (bp - ps) _ _ hcpre').mp hc with
              hc2 | hc2
            · refine Or.inr (Or.inr ?_)
              rw [mem_starts_append_iff _ pre' 16 (bp - ps) _ _ hpre2]
              exact Or.inl hc2
            · rcases List.mem_cons.mp hc2 with hc3 | hc3
              · exact absurd ⟨by omega, by omega⟩ hcond
              · cases hc3
          · exact absurd ⟨by omega, by omega⟩ hcond
          · have := starts_ge suf (bp + s) _ hc
            refine Or.inr (Or.inr ?_)
            rw [mem_starts_append_iff _ pre' 16 (bp - ps) _ _ hpre2]
            right
            refine List.mem_cons_of_mem _ ?_
            rw [show bp - ps + (s + ps) = bp + s from by omega]
            exact hc
    · rw [noAdjFree, List.chain'_append]
      refine ⟨hpre'C, ?_, ?_⟩
      · rw [List.chain'_cons']
        exact ⟨fun y hy => Or.inr (hglueR y hy), hsufC⟩
      · intro x hx y hy
        injection hy with hy2
        subst hy2
        exact Or.inl (hlastA x hx)
  · -- both neighbours free : absorb both
    subst hpre_eq
    subst hsuf_eq
    have hble : bp + s + ns ≤ h.brk := by
      have := chain_le h.mem suf' (bp + s + ns) h.brk hsuf'
      omega
    have hlt4 : s + ps + ns < 4294967296 := by omega
    have g1 : GET (PUT (PUT h.mem (bp - ps - 4) (PACK (s + ps + ns) 0)) (bp + s + ns - 8)
        (PACK (s + ps + ns) 0)) (bp - ps - 4) = (s + ps + ns) + 0 := by
      rw [GET_PUT_ne _ _ _ _ (by omega) (by omega) (by omega), GET_PUT_eq, PACK_zero,
        Nat.mod_eq_of_lt (by omega)]
      omega
    have g2 : GET (PUT (PUT h.mem (bp - ps - 4) (PACK (s + ps + ns) 0)) (bp + s + ns - 8)
        (PACK (s + ps + ns) 0)) (bp + s + ns - 8) = (s + ps + ns) + 0 := by
      rw [GET_PUT_eq, PACK_zero, Nat.mod_eq_of_lt (by omega)]
      omega
    have hfr : ∀ q, q + 8 ≤ bp - ps →
        GET (PUT (PUT h.mem (bp - ps - 4) (PACK (s + ps + ns) 0)) (bp + s + ns - 8)
          (PACK (s + ps + ns) 0)) q = GET h.mem q := by
      intro q hq
      rw [GET_PUT_out _ _ _ _ (by omega), GET_PUT_out _ _ _ _ (by omega)]
    have hfrhi : ∀ q, bp + s + ns ≤ q + 4 →
        GET (PUT (PUT h.mem (bp - ps - 4) (PACK (s + ps + ns) 0)) (bp + s + ns - 8)
          (PACK (s + ps + ns) 0)) q = GET h.mem q := by
      intro q hq
      rw [GET_PUT_out _ _ _ _ (by omega), GET_PUT_out _ _ _ _ (by omega)]
    have hpre2 : chain (PUT (PUT h.mem (bp - ps - 4) (PACK (s + ps + ns) 0))
        (bp + s + ns - 8) (PACK (s + ps + ns) 0)) 16 pre' (bp - ps) :=
      chain_frame h.mem _ pre' 16 (bp - ps) hcpre' (fun q _ hq2 => hfr q hq2)
    have hsuf2 : chain (PUT (PUT h.mem (bp - ps - 4) (PACK (s + ps + ns) 0))
        (bp + s + ns - 8) (PACK (s + ps + ns) 0)) (bp + s + ns) suf' h.brk :=
      chain_frame h.mem _ suf' (bp + s + ns) h.brk hsuf' (fun q hq1 _ => hfrhi q hq1)
    have hcons : chain (PUT (PUT h.mem (bp - ps - 4) (PACK (s + ps + ns) 0))
        (bp + s + ns - 8) (PACK (s + ps + ns) 0)) (bp - ps)
        ((s + ps + ns, false) :: suf') h.brk := by
      refine ⟨by omega, by omega, by simpa using g1, ?_, ?_⟩
      · rw [show bp - ps + (s + ps + ns) - 8 = bp + s + ns - 8 from by omega]
        simpa using g2
      · rw [show bp - ps + (s + ps + ns) = bp + s + ns from by omega]
        exact hsuf2
    rw [noAdjFree, List.chain'_append] at hpreC
    obtain ⟨hpre'C, _, hglue⟩ := hpreC
    have hlastA : ∀ x ∈ pre'.getLast?, x.2 = true := by
      intro x hx
      rcases hglue x hx (ps, false) rfl with h1 | h2
      · exact h1
      · cases h2
    have hheadF : ∀ y ∈ suf'.head?, y.2 = true := by
      intro y hy
      rw [noAdjFree, List.chain'_cons'] at hsufC
      rcases hsufC.1 y hy with hl | hr
      · cases hl
      · exact hr
    refine ⟨bp - ps, _, pre', suf', s + ps + ns,
      coalesce_case4_eq h bp ps s ns hpf hph hbsz hnh hnf2 h8bp h8ps h8s h8ns (by omega)
        (by omega) (by omega) (by omega) hlt4, ?_, ?_, hpre2, hcons, by omega, rfl, rfl,
      rfl⟩
    · refine ⟨hlp, ?_, ?_, ?_, ?_, hbk, hbl, hll, ?_⟩
      · rw [hfr 4 (by omega)]
        exact hp4
      · rw [hfr 8 (by omega)]
        exact hp8
      · rw [chain_append]
        exact ⟨bp - ps, hpre2, hcons⟩
      · rw [hfrhi (h.brk - 4) (by omega)]
        exact hep
      · show validPos _ h.brk (if bp - ps ≤ h.next_fit ∧ h.next_fit < bp + s + ns
          then bp - ps else h.next_fit)
        by_cases hcond : bp - ps ≤ h.next_fit ∧ h.next_fit < bp + s + ns
        · rw [if_pos hcond]
          refine Or.inr (Or.inr ?_)
          rw [mem_starts_append_iff _ pre' 16 (bp - ps) _ _ hpre2]
          exact Or.inr (List.mem_cons_self _ _)
        · rw [if_neg hcond]
          rcases hcurd with hc | hc | hc | hc | hc
          · exact Or.inl hc
          · exact Or.inr (Or.inl hc)
          · rcases (mem_starts_append_iff h.mem pre' 16 (bp - ps) _ _ hcpre').mp hc with
              hc2 | hc2
            · refine Or.inr (Or.inr ?_)
              rw [mem_starts_append_iff _ pre' 16 (bp - ps) _ _ hpre2]
              exact Or.inl hc2
            · rcases List.mem_cons.mp hc2 with hc3 | hc3
              · exact absurd ⟨by omega, by omega⟩ hcond
              · cases hc3
          · exact absurd ⟨by omega, by omega⟩ hcond
          · rcases List.mem_cons.mp hc with hc2 | hc2
            · exact absurd ⟨by omega, by omega⟩ hcond
            · have := starts_ge suf' (bp + s + ns) _ hc2
              refine Or.inr (Or.inr ?_)
              rw [mem_starts_append_iff _ pre' 16 (bp - ps) _ _ hpre2]
              right
              refine List.mem_cons_of_mem _ ?_
              rw [show bp - ps + (s + ps + ns) = bp + s + ns from by omega]
              exact hc2
    · rw [noAdjFree, List.chain'_append]
      refine ⟨hpre'C, ?_, ?_⟩
      · rw [List.chain'_cons']
        refine ⟨fun y hy => Or.inr (hheadF y hy), ?_⟩
        rw [noAdjFree, List.chain'_cons'] at hsufC
        exact hsufC.2
      · intro x hx y hy
        injection hy with hy2
        subst hy2
        exact Or.inl (hlastA x hx)

theorem starts_irrel_alloc : ∀ (pre : List (Nat × Bool)) (a s : Nat) (al al' : Bool)
    (suf : List (Nat × Bool)),
    starts a (pre ++ (s, al) :: suf) = starts a (pre ++ (s, al') :: suf) := by
  intro pre
  induction pre with
  | nil => intro a s al al' suf; rfl
  | cons x pre ih =>
    intro a s al al' suf
    obtain ⟨s0, al0⟩ := x
    simp only [List.cons_append, starts]
    show a :: starts (a + s0) (pre ++ (s, al) :: suf) =
      a :: starts (a + s0) (pre ++ (s, al') :: suf)
    rw [ih]

/-- Freeing a valid allocated block preserves the heap representation
and the no-adjacent-free invariant (via `coalesce`). -/
theorem mm_free_inv (h : Heap) (bs : List (Nat × Bool)) (bp S : Nat)
    (hrep : heapRep h bs) (hnaf : noAdjFree bs)
    (hba : blockAt 16 bs bp = some (S, true)) :
    ∃ bs2, heapRep (mm_free h bp) bs2 ∧ noAdjFree bs2 := by
  obtain ⟨hlp, hp4, hp8, hch, hep, hbk, hbl, hll, hcur⟩ := hrep
  obtain ⟨pre, suf, hbs, hcpre, hcsuf⟩ :=
    blockAt_decomp h.mem bs 16 h.brk bp S true hch hba
  have hS16 : 16 ≤ S := hcsuf.1
  have h8S : 8 ∣ S := hcsuf.2.1
  have hhdr : GET h.mem (bp - 4) = S + 1 := by simpa using hcsuf.2.2.1
  have hftr : GET h.mem (bp + S - 8) = S + 1 := by simpa using hcsuf.2.2.2.1
  have hrest : chain h.mem (bp + S) suf h.brk := hcsuf.2.2.2.2
  have hbp16 : 16 ≤ bp := by
    have := chain_le h.mem pre 16 bp hcpre
    omega
  have h8bp : 8 ∣ bp := chain_dvd h.mem pre 16 bp (by omega) hcpre
  have hSle : bp + S ≤ h.brk := chain_le h.mem suf (bp + S) h.brk hrest
  have hdec := decode_fields h.mem (bp - 4) S 1 hhdr h8S (by omega)
  have hszeq : GET_SIZE h.mem (HDRP bp) = S := hdec.1
  have hftrp : FTRP (PUT h.mem (HDRP bp) (PACK S 0)) bp = bp + S - 8 := by
    show bp + GET_SIZE (PUT h.mem (bp - 4) (PACK S 0)) (bp - 4) - 8 = bp + S - 8
    have hg : GET (PUT h.mem (bp - 4) (PACK S 0)) (bp - 4) = S := by
      rw [GET_PUT_eq, PACK_zero, Nat.mod_eq_of_lt (by omega)]
    show bp + (GET (PUT h.mem (bp - 4) (PACK S 0)) (bp - 4) -
      GET (PUT h.mem (bp - 4) (PACK S 0)) (bp - 4) % 8) - 8 = bp + S - 8
    rw [hg]
    omega
  have hfree : mm_free h bp = (coalesce { h with
      mem := PUT (PUT h.mem (bp - 4) (PACK S 0)) (bp + S - 8) (PACK S 0) } bp).2 := by
    simp only [mm_free]
    rw [hszeq, hftrp]
    rfl
  have hfr : ∀ q, q + 8 ≤ bp →
      GET (PUT (PUT h.mem (bp - 4) (PACK S 0)) (bp + S - 8) (PACK S 0)) q =
        GET h.mem q := by
    intro q hq
    rw [GET_PUT_out _ _ _ _ (by omega), GET_PUT_out _ _ _ _ (by omega)]
  have hfrhi : ∀ q, bp + S ≤ q + 4 →
      GET (PUT (PUT h.mem (bp - 4) (PACK S 0)) (bp + S - 8) (PACK S 0)) q =
        GET h.mem q := by
    intro q hq
    rw [GET_PUT_out _ _ _ _ (by omega), GET_PUT_out _ _ _ _ (by omega)]
  have g1 : GET (PUT (PUT h.mem (bp - 4) (PACK S 0)) (bp + S - 8) (PACK S 0)) (bp - 4) =
      S + 0 := by
    rw [GET_PUT_ne _ _ _ _ (by omega) (by omega) (by omega), GET_PUT_eq, PACK_zero,
      Nat.mod_eq_of_lt (by omega)]
    omega
  have g2 : GET (PUT (PUT h.mem (bp - 4) (PACK S 0)) (bp + S - 8) (PACK S 0))
      (bp + S - 8) = S + 0 := by
    rw [GET_PUT_eq, PACK_zero, Nat.mod_eq_of_lt (by omega)]
    omega
  have hpre2 : chain (PUT (PUT h.mem (bp - 4) (PACK S 0)) (bp + S - 8) (PACK S 0))
      16 pre bp :=
    chain_frame h.mem _ pre 16 bp hcpre (fun q _ hq2 => hfr q hq2)
  have hsuf2 : chain (PUT (PUT h.mem (bp - 4) (PACK S 0)) (bp + S - 8) (PACK S 0))
      (bp + S) suf h.brk :=
    chain_frame h.mem _ suf (bp + S) h.brk hrest (fun q hq1 _ => hfrhi q hq1)
  have hcons : chain (PUT (PUT h.mem (bp - 4) (PACK S 0)) (bp + S - 8) (PACK S 0))
      bp ((S, false) :: suf) h.brk := by
    refine ⟨by omega, by omega, by simpa using g1, by simpa using g2, hsuf2⟩
  rw [hbs] at hnaf
  rw [noAdjFree, List.chain'_append] at hnaf
  obtain ⟨hpreC, hconsC, _⟩ := hnaf
  have hsufC : noAdjFree suf := by
    rw [noAdjFree]
    rw [List.chain'_cons'] at hconsC
    exact hconsC.2
  have hrep2 : heapRep { h with
      mem := PUT (PUT h.mem (bp - 4) (PACK S 0)) (bp + S - 8) (PACK S 0) }
      (pre ++ (S, false) :: suf) := by
    refine ⟨hlp, ?_, ?_, ?_, ?_, hbk, hbl, hll, ?_⟩
    · rw [hfr 4 (by omega)]
      exact hp4
    · rw [hfr 8 (by omega)]
      exact hp8
    · rw [chain_append]
      exact ⟨bp, hpre2, hcons⟩
    · rw [hfrhi (h.brk - 4) (by omega)]
      exact hep
    · show validPos (pre ++ (S, false) :: suf) h.brk h.next_fit
      rw [hbs] at hcur
      rcases hcur with hc | hc | hc
      · exact Or.inl hc
      · exact Or.inr (Or.inl hc)
      · refine Or.inr (Or.inr ?_)
        rw [starts_irrel_alloc pre 16 S false true suf]
        exact hc
  obtain ⟨bp2, h2, pre2, suf2, ms, heq, hrep3, hnaf3, _, _, _, _, _, _⟩ :=
    coalesce_inv { h with
        mem := PUT (PUT h.mem (bp - 4) (PACK S 0)) (bp + S - 8) (PACK S 0) }
      pre suf bp S hrep2 hpre2 hcons hpreC hsufC
  refine ⟨pre2 ++ (ms, false) :: suf2, ?_, hnaf3⟩
  rw [hfree, heq]
  exact hrep3

/-- With an even word count and room below the limit, `extend_heap`
grows the heap, formats the new space as one free block followed by a
fresh epilogue, and coalesces. -/
theorem extend_heap_eq (h : Heap) (words : Nat)
    (heven : words % 2 = 0) (h16 : 16 ≤ words * 4)
    (hbk16 : 16 ≤ h.brk) (h8bk : 8 ∣ h.brk)
    (hfit : h.brk + words * 4 ≤ h.limit) (hll : h.limit < 4294967296) :
    extend_heap h words = some (coalesce { h with
      brk := h.brk + words * 4,
      mem := PUT (PUT (PUT h.mem (h.brk - 4) (PACK (words * 4) 0))
        (h.brk + words * 4 - 8) (PACK (words * 4) 0))
        (h.brk + words * 4 - 4) (PACK 0 1) } h.brk) := by
  have hcond : ¬ (words % 2 = 1) := by omega
  have hsb : mem_sbrk h (words * 4) =
      some (h.brk, { h with brk := h.brk + words * 4 }) := by
    unfold mem_sbrk
    rw [if_neg (show ¬ h.limit < h.brk + words * 4 from by omega)]
  simp only [extend_heap, if_neg hcond, WSIZE, hsb, HDRP, FTRP, NEXT_BLKP, DSIZE]
  have hg1 : GET (PUT h.mem (h.brk - 4) (PACK (words * 4) 0)) (h.brk - 4) =
      words * 4 := by
    rw [GET_PUT_eq, PACK_zero, Nat.mod_eq_of_lt (by omega)]
  have hgs1 : GET_SIZE (PUT h.mem (h.brk - 4) (PACK (words * 4) 0)) (h.brk - 4) =
      words * 4 := by
    unfold GET_SIZE
    rw [hg1]
    omega
  rw [hgs1]
  have hg2 : GET (PUT (PUT h.mem (h.brk - 4) (PACK (words * 4) 0))
      (h.brk + words * 4 - 8) (PACK (words * 4) 0)) (h.brk - 4) = words * 4 := by
    rw [GET_PUT_ne _ _ _ _ (by omega) (by omega) (by omega), hg1]
  have hgs2 : GET_SIZE (PUT (PUT h.mem (h.brk - 4) (PACK (words * 4) 0))
      (h.brk + words * 4 - 8) (PACK (words * 4) 0)) (h.brk - 4) = words * 4 := by
    unfold GET_SIZE
    rw [hg2]
    omega
  rw [hgs2]

/-- Growing the heap preserves the representation: the result is a
well-formed heap whose block list ends (after coalescing) in a free
block of at least the requested size, starting at the returned
pointer. -/
theorem extend_heap_inv (h : Heap) (bs : List (Nat × Bool)) (words bp2 : Nat) (h2 : Heap)
    (hrep : heapRep h bs) (hnaf : noAdjFree bs)
    (heven : words % 2 = 0) (h16 : 16 ≤ words * 4)
    (hrun : extend_heap h words = some (bp2, h2)) :
    ∃ pre2 suf2 ms, heapRep h2 (pre2 ++ (ms, false) :: suf2) ∧
      noAdjFree (pre2 ++ (ms, false) :: suf2) ∧
      chain h2.mem 16 pre2 bp2 ∧ chain h2.mem bp2 ((ms, false) :: suf2) h2.brk ∧
      words * 4 ≤ ms := by
  obtain ⟨hlp, hp4, hp8, hch, hep, hbk, hbl, hll, hcur⟩ := hrep
  have h8bk : 8 ∣ h.brk := chain_dvd h.mem bs 16 h.brk (by omega) hch
  have h8sz : 8 ∣ words * 4 := by omega
  have hfit : h.brk + words * 4 ≤ h.limit := by
    by_contra hbad
    have : extend_heap h words = none := by
      rw [extend_heap_none_iff]
      rw [if_neg (show ¬ (words % 2 = 1) from by omega)]
      show h.limit < h.brk + words * WSIZE
      simp only [WSIZE]
      omega
    rw [this] at hrun
    cases hrun
  have hEq := extend_heap_eq h words heven h16 hbk h8bk hfit hll
  have hfr : ∀ q, q + 8 ≤ h.brk →
      GET (PUT (PUT (PUT h.mem (h.brk - 4) (PACK (words * 4) 0))
        (h.brk + words * 4 - 8) (PACK (words * 4) 0))
        (h.brk + words * 4 - 4) (PACK 0 1)) q = GET h.mem q := by
    intro q hq
    rw [GET_PUT_out _ _ _ _ (by omega), GET_PUT_out _ _ _ _ (by omega),
      GET_PUT_out _ _ _ _ (by omega)]
  have g1 : GET (PUT (PUT (PUT h.mem (h.brk - 4) (PACK (words * 4) 0))
      (h.brk + words * 4 - 8) (PACK (words * 4) 0))
      (h.brk + words * 4 - 4) (PACK 0 1)) (h.brk - 4) = words * 4 + 0 := by
    rw [GET_PUT_ne _ _ _ _ (by omega) (by omega) (by omega),
      GET_PUT_ne _ _ _ _ (by omega) (by omega) (by omega), GET_PUT_eq, PACK_zero,
      Nat.mod_eq_of_lt (by omega)]
    omega
  have g2 : GET (PUT (PUT (PUT h.mem (h.brk - 4) (PACK (words * 4) 0))
      (h.brk + words * 4 - 8) (PACK (words * 4) 0))
      (h.brk + words * 4 - 4) (PACK 0 1)) (h.brk + words * 4 - 8) = words * 4 + 0 := by
    rw [GET_PUT_ne _ _ _ _ (by omega) (by omega) (by omega), GET_PUT_eq, PACK_zero,
      Nat.mod_eq_of_lt (by omega)]
    omega
  have g3 : GET (PUT (PUT (PUT h.mem (h.brk - 4) (PACK (words * 4) 0))
      (h.brk + words * 4 - 8) (PACK (words * 4) 0))
      (h.brk + words * 4 - 4) (PACK 0 1)) (h.brk + words * 4 - 4) = 1 := by
    rw [GET_PUT_eq]
    rfl
  have hpre2 : chain (PUT (PUT (PUT h.mem (h.brk - 4) (PACK (words * 4) 0))
      (h.brk + words * 4 - 8) (PACK (words * 4) 0))
      (h.brk + words * 4 - 4) (PACK 0 1)) 16 bs h.brk :=
    chain_frame h.mem _ bs 16 h.brk hch (fun q _ hq2 => hfr q hq2)
  have hcons : chain (PUT (PUT (PUT h.mem (h.brk - 4) (PACK (words * 4) 0))
      (h.brk + words * 4 - 8) (PACK (words * 4) 0))
      (h.brk + words * 4 - 4) (PACK 0 1)) h.brk ([(words * 4, false)])
      (h.brk + words * 4) := by
    refine ⟨by omega, by omega, by simpa using g1, by simpa using g2, rfl⟩
  have hrep2 : heapRep { h with
      brk := h.brk + words * 4,
      mem := PUT (PUT (PUT h.mem (h.brk - 4) (PACK (words * 4) 0))
        (h.brk + words * 4 - 8) (PACK (words * 4) 0))
        (h.brk + words * 4 - 4) (PACK 0 1) } (bs ++ (words * 4, false) :: []) := by
    refine ⟨hlp, ?_, ?_, ?_, ?_, show 16 ≤ h.brk + words * 4 from by omega, hfit,
      hll, ?_⟩
    · rw [hfr 4 (by omega)]
      exact hp4
    · rw [hfr 8 (by omega)]
      exact hp8
    · rw [chain_append]
      exact ⟨h.brk, hpre2, hcons⟩
    · show GET _ (h.brk + words * 4 - 4) = 1
      exact g3
    · show validPos (bs ++ (words * 4, false) :: []) (h.brk + words * 4) h.next_fit
      rcases hcur with hc | hc | hc
      · exact Or.inl hc
      · refine Or.inr (Or.inr ?_)
        rw [mem_starts_append_iff _ bs 16 h.brk _ _ hpre2]
        right
        rw [hc]
        exact List.mem_cons_self _ _
      · refine Or.inr (Or.inr ?_)
        rw [mem_starts_append_iff _ bs 16 h.brk _ _ hpre2]
        exact Or.inl hc
  obtain ⟨cbp, ch, pre2, suf2, ms, heq, hrep3, hnaf3, hchp, hchc, hms, _, _, _⟩ :=
    coalesce_inv { h with
        brk := h.brk + words * 4,
        mem := PUT (PUT (PUT h.mem (h.brk - 4) (PACK (words * 4) 0))
          (h.brk + words * 4 - 8) (PACK (words * 4) 0))
          (h.brk + words * 4 - 4) (PACK 0 1) } bs [] h.brk (words * 4)
      hrep2 hpre2 hcons hnaf (by simp [noAdjFree])
  rw [hEq, heq] at hrun
  injection hrun with hrun2
  injection hrun2 with hbp2 hh2
  subst hbp2
  subst hh2
  exact ⟨pre2, suf2, ms, hrep3, hnaf3, hchp, hchc, by omega⟩

/-- In the no-overflow regime the adjusted size is a multiple of 8
between 16 and `size + 15`. -/
theorem asizeOf_bounds (size : Nat) (h0 : 0 < size) (hs : size ≤ 2147483632) :
    16 ≤ asizeOf size ∧ 8 ∣ asizeOf size ∧ size ≤ asizeOf size ∧
      asizeOf size ≤ size + 15 := by
  unfold asizeOf DSIZE
  by_cases hc : size ≤ 8
  · rw [if_pos hc]
    omega
  · rw [if_neg hc]
    have hm : (size + 8 + 7) % 4294967296 = size + 15 := by omega
    rw [hm]
    omega

/-- `mm_malloc` preserves the heap representation and the
no-adjacent-free invariant. -/
theorem mm_malloc_inv (h : Heap) (bs : List (Nat × Bool)) (size fuel : Nat)
    (r : Option Nat) (h2 : Heap)
    (hrep : heapRep h bs) (hnaf : noAdjFree bs)
    (hsize : size ≤ 2147483632)
    (hrun : mm_malloc h size fuel = some (r, h2)) :
    ∃ bs2, heapRep h2 bs2 ∧ noAdjFree bs2 := by
  by_cases hz : size = 0
  · simp only [mm_malloc, if_pos hz] at hrun
    injection hrun with hrun2
    injection hrun2 with _ hh2
    subst hh2
    exact ⟨bs, hrep, hnaf⟩
  · simp only [mm_malloc, if_neg hz] at hrun
    obtain ⟨h16a, h8a, hsza, hub⟩ := asizeOf_bounds size (by omega) hsize
    rcases hff : find_fit h (asizeOf size) fuel with _ | ⟨or, h1⟩
    · rw [hff] at hrun
      cases hrun
    · rw [hff] at hrun
      obtain ⟨hm1, hb1, hl1, hp1, hrep1, hfound⟩ :=
        find_fit_inv h bs (asizeOf size) fuel hrep or h1 hff
      rcases or with _ | bp
      · dsimp only at hrun
        rcases hE : extend_heap h1 (extendsizeOf (asizeOf size) / WSIZE) with _ | ⟨ebp, h3⟩
        · rw [hE] at hrun
          injection hrun with hrun2
          injection hrun2 with _ hh2
          subst hh2
          exact ⟨bs, hrep1, hnaf⟩
        · rw [hE] at hrun
          injection hrun with hrun2
          injection hrun2 with _ hh2
          subst hh2
          have hex : extendsizeOf (asizeOf size) = max (asizeOf size) 4096 :=
            extendsizeOf_small _ (by omega)
          have h8e : 8 ∣ extendsizeOf (asizeOf size) := by
            rw [hex]
            rcases Nat.le_total (asizeOf size) 4096 with hle | hle
            · rw [Nat.max_eq_right hle]
              omega
            · rw [Nat.max_eq_left hle]
              exact h8a
          have heqw : extendsizeOf (asizeOf size) / WSIZE * 4 =
              extendsizeOf (asizeOf size) := by
            show extendsizeOf (asizeOf size) / 4 * 4 = extendsizeOf (asizeOf size)
            omega
          have heven : extendsizeOf (asizeOf size) / WSIZE % 2 = 0 := by
            show extendsizeOf (asizeOf size) / 4 % 2 = 0
            omega
          have h16w : 16 ≤ extendsizeOf (asizeOf size) / WSIZE * 4 := by
            rw [heqw, hex]
            omega
          obtain ⟨pre2, suf2, ms, hrep3, hnaf3, hchp, hchc, hms⟩ :=
            extend_heap_inv h1 bs (extendsizeOf (asizeOf size) / WSIZE) ebp h3
              hrep1 hnaf heven h16w hE
          have hams : asizeOf size ≤ ms := by
            rw [heqw, hex] at hms
            omega
          exact place_inv h3 (pre2 ++ (ms, false) :: suf2) pre2 suf2 ebp ms
            (asizeOf size) hrep3 hnaf3 rfl hchp hchc h16a h8a hams
      · dsimp only at hrun
        injection hrun with hrun2
        injection hrun2 with _ hh2
        subst hh2
        obtain ⟨hnf1, pre, s, suf, hbs, hcpre, hcsuf, has⟩ := hfound bp rfl
        rw [← hm1] at hcpre hcsuf
        rw [← hb1] at hcsuf
        exact place_inv h1 bs pre suf bp s (asizeOf size) hrep1 hnaf hbs hcpre hcsuf
          h16a h8a has

/-- A successful `mm_init` is the bootstrap writes followed by the
first `extend_heap`. -/
theorem mm_init_eq (limit : Nat) (h16 : 16 ≤ limit) :
    mm_init limit = (match extend_heap
      { mem := PUT (PUT (PUT (PUT (fun _ => 0) 0 0) 4 (PACK 8 1)) 8 (PACK 8 1)) 12 (PACK 0 1),
        brk := 16, limit := limit, heap_listp := 8, next_fit := 8 } (CHUNKSIZE / WSIZE) with
      | none => none
      | some (_, h3) => some h3) := by
  have hsb : mem_sbrk
      { mem := fun _ => 0, brk := 0, limit := limit, heap_listp := 0, next_fit := 0 }
      (4 * WSIZE) =
      some (0,
        { mem := fun _ => 0, brk := 16, limit := limit, heap_listp := 0, next_fit := 0 }) := by
    unfold mem_sbrk
    split
    · rename_i hcond
      simp only [WSIZE] at hcond
      omega
    · rfl
  simp only [mm_init]
  rw [hsb]
  rfl

/-- A successful `mm_init` yields a well-formed heap with no adjacent
free blocks. -/
theorem mm_init_inv (limit : Nat) (h3 : Heap) (hrun : mm_init limit = some h3)
    (hll : limit < 4294967296) :
    ∃ bs, heapRep h3 bs ∧ noAdjFree bs := by
  by_cases h16 : 16 ≤ limit
  · rw [mm_init_eq limit h16] at hrun
    rcases hE : extend_heap
        { mem := PUT (PUT (PUT (PUT (fun _ => 0) 0 0) 4 (PACK 8 1)) 8 (PACK 8 1)) 12 (PACK 0 1),
          brk := 16, limit := limit, heap_listp := 8, next_fit := 8 } (CHUNKSIZE / WSIZE) with _ | ⟨ebp, hx⟩
    · rw [hE] at hrun
      cases hrun
    · rw [hE] at hrun
      injection hrun with hh3
      subst hh3
      have hrep2 : heapRep
          { mem := PUT (PUT (PUT (PUT (fun _ => 0) 0 0) 4 (PACK 8 1)) 8 (PACK 8 1)) 12 (PACK 0 1),
            brk := 16, limit := limit, heap_listp := 8, next_fit := 8 } [] := by
        refine ⟨rfl, ?_, ?_, rfl, ?_, ?_, h16, hll, Or.inl rfl⟩
        · show GET (PUT (PUT (PUT (PUT (fun _ => 0) 0 0) 4 (PACK 8 1)) 8 (PACK 8 1))
            12 (PACK 0 1)) 4 = 9
          decide
        · show GET (PUT (PUT (PUT (PUT (fun _ => 0) 0 0) 4 (PACK 8 1)) 8 (PACK 8 1))
            12 (PACK 0 1)) 8 = 9
          decide
        · show GET (PUT (PUT (PUT (PUT (fun _ => 0) 0 0) 4 (PACK 8 1)) 8 (PACK 8 1))
            12 (PACK 0 1)) (16 - 4) = 1
          decide
        · show (16 : Nat) ≤ 16
          decide
      obtain ⟨pre2, suf2, ms, hrep3, hnaf3, _, _, _⟩ :=
        extend_heap_inv _ [] (CHUNKSIZE / WSIZE) ebp hx hrep2 (by simp [noAdjFree])
          (by decide) (by decide) hE
      exact ⟨pre2 ++ (ms, false) :: suf2, hrep3, hnaf3⟩
  · exfalso
    have hsb : mem_sbrk
        { mem := fun _ => 0, brk := 0, limit := limit, heap_listp := 0, next_fit := 0 }
        (4 * WSIZE) = none := by
      unfold mem_sbrk
      split
      · rfl
      · rename_i hcond
        simp only [WSIZE] at hcond
        omega
    simp only [mm_init] at hrun
    rw [hsb] at hrun
    cases hrun

/-- C4: in every heap state reachable from a successful `mm_init` by
any sequence of `mm_malloc` (non-overflowing request sizes) and
`mm_free` (on valid allocated blocks) operations, the heap is
represented by a block list in which no two physically adjacent blocks
are both free. -/
theorem C4_no_adjacent_free_blocks (h : Heap) (hr : Reach h) :
    ∃ bs, heapRep h bs ∧ noAdjFree bs := by
  induction hr with
  | init limit h hrun hll => exact mm_init_inv limit h hrun hll
  | step_malloc h size fuel r h2 _ hsize hrun ih =>
    obtain ⟨bs, hrep, hnaf⟩ := ih
    exact mm_malloc_inv h bs size fuel r h2 hrep hnaf hsize hrun
  | step_free h bp _ hvf ih =>
    obtain ⟨bs, hrep, hnaf⟩ := ih
    obtain ⟨S, hba⟩ := hvf bs hrep
    exact mm_free_inv h bs bp S hrep hnaf hba

/-- The C4 invariant holds of the concretely initialized heap. -/
theorem C4_witness : ∃ bs, heapRep heap0 bs ∧ noAdjFree bs :=
  C4_no_adjacent_free_blocks heap0 (Reach.init 100000 heap0 rfl (by decide))

end MM
